import Mathlib

/-!
# Imprint: a shallow embedding of the record format core

This file embeds the Rust sources of the `imprint` crate
(`src/varint.rs`, `src/types.rs`, `src/serde.rs`, `src/writer.rs`,
`src/ops.rs`, `src/error.rs`) into Lean and proves or refutes the frozen
specification claims about them.

Modelling conventions:

* Byte buffers (`bytes::Bytes` / `BytesMut`) are `List Nat`; a list entry `b`
  models the byte `b % 256`, and `u8` casts are made explicit at read sites.
* Machine integers (`u8`, `u32`, `i32`, `i64`) are `Nat`/`Int` with explicit
  `% 2^w` truncation at the points where the Rust types truncate; theorems
  carry the corresponding range hypotheses where the source's static types
  guarantee the bound.
* Fallible Rust code (`Result<T, ImprintError>`) becomes
  `Except ImprintError T`.  Code that can *panic* (the `bytes` crate's
  `get_u8`/`slice`/index operators on out-of-range input, and `unwrap()`)
  is wrapped one level further in `Option`, with `none` modelling a panic.
* `f32`/`f64` payloads are modelled by their little-endian bit patterns
  (a `Nat`); no claim depends on floating-point arithmetic.
* `types.rs` declares a `payload_size` field on `Header` which no function
  of the crate ever reads, which is never serialized by `Write for Header`,
  and which the header parser in `serde.rs` does not populate (the struct
  literal at serde.rs:306 omits it).  The specification (§9, open question 3)
  states that the header is fixed at 11 bytes and that `payload_size` is not
  part of this specification.  The embedding therefore models `Header` by the
  two fields that the codec actually carries: `flags` and `schema_id`.
-/

set_option maxHeartbeats 1000000

namespace Imprint

/-- Interpret a `Nat` as the `u8` it models. -/
def u8 (b : Nat) : Nat := b % 256

/-- `put_u32_le`: the four little-endian bytes of `n` as a `u32`. -/
def putU32le (n : Nat) : List Nat :=
  [n % 256, n / 256 % 256, n / 2 ^ 16 % 256, n / 2 ^ 24 % 256]

/-- `get_u32_le`: recombine four little-endian bytes. -/
def getU32le (b0 b1 b2 b3 : Nat) : Nat :=
  u8 b0 + 256 * u8 b1 + 2 ^ 16 * u8 b2 + 2 ^ 24 * u8 b3

/-- The error enum of `error.rs` (the `Io` variant carries an OS error and is
not reachable from the in-memory operations modelled here). -/
inductive ImprintError where
  | invalidMagic (b : Nat)
  | unsupportedVersion (b : Nat)
  | invalidFieldType (b : Nat)
  | invalidVarInt
  | fieldNotFound (id : Nat)
  | invalidUtf8String
  | bufferUnderflow (needed available : Nat)
  | schemaError (msg : String)
  deriving DecidableEq, Repr

/-! ## Varint codec (`varint.rs`) -/

/-- `varint::encode`: unsigned LEB128, 7-bit groups least-significant first,
continuation bit `0x80` on every byte except the last.  Mirrors the
`loop { byte = val & 0x7f; val >>= 7; ... }` in `varint.rs`. -/
def varintEncode (v : Nat) : List Nat :=
  let byte := v % 128
  let rest := v / 128
  if h : rest = 0 then [byte]
  else (byte + 128) :: varintEncode rest
  decreasing_by
    simp_wf
    omega

/-- The loop of `varint::decode`.  `result |= segment << shift` is faithful to
the source: the accumulator always has all bits below `shift`, so the
bitwise-or is the addition `result + segment * 2^shift`; we keep the `|||`
form.  The checks appear in source order: the 5-byte cap, buffer exhaustion,
then the u32-overflow guard. -/
def varintDecodeLoop : List Nat → Nat → Nat → Nat → Except ImprintError (Nat × Nat)
  | bytes, result, shift, bytesRead =>
    if 5 ≤ bytesRead then .error .invalidVarInt
    else
      match bytes with
      | [] => .error (.bufferUnderflow 1 0)
      | byteRaw :: rest =>
        let byte := u8 byteRaw
        let segment := byte % 128
        if 32 ≤ shift ∨ (shift = 28 ∧ 15 < segment) then .error .invalidVarInt
        else
          let result := result ||| (segment <<< shift)
          if byte < 128 then .ok (result, bytesRead + 1)
          else varintDecodeLoop rest result (shift + 7) (bytesRead + 1)

/-- `varint::decode`: returns the value and the number of bytes read. -/
def varintDecode (bytes : List Nat) : Except ImprintError (Nat × Nat) :=
  varintDecodeLoop bytes 0 0 0

/-! ## Type system (`types.rs`) -/

/-- The ten wire type codes. -/
inductive TypeCode where
  | null | bool | int32 | int64 | float32 | float64
  | bytes | string | array | row
  deriving DecidableEq, Repr

/-- The `repr(u8)` discriminant of a type code. -/
def TypeCode.toByte : TypeCode → Nat
  | .null => 0x0
  | .bool => 0x1
  | .int32 => 0x2
  | .int64 => 0x3
  | .float32 => 0x4
  | .float64 => 0x5
  | .bytes => 0x6
  | .string => 0x7
  | .array => 0x8
  | .row => 0x9

/-- `TryFrom<u8> for TypeCode`. -/
def typeCodeOfByte (b : Nat) : Except ImprintError TypeCode :=
  if b = 0x0 then .ok .null
  else if b = 0x1 then .ok .bool
  else if b = 0x2 then .ok .int32
  else if b = 0x3 then .ok .int64
  else if b = 0x4 then .ok .float32
  else if b = 0x5 then .ok .float64
  else if b = 0x6 then .ok .bytes
  else if b = 0x7 then .ok .string
  else if b = 0x8 then .ok .array
  else if b = 0x9 then .ok .row
  else .error (.invalidFieldType b)

/-- `Flags(u8)`; only bit 0 (`FIELD_DIRECTORY`) is defined. -/
structure Flags where
  val : Nat
  deriving DecidableEq, Repr

def Flags.hasFieldDirectory (f : Flags) : Bool := f.val % 2 = 1

/-- `SchemaId { fieldspace_id: u32, schema_hash: u32 }`. -/
structure SchemaId where
  fieldspaceId : Nat
  schemaHash : Nat
  deriving DecidableEq, Repr

/-- The record header as the codec carries it: `flags` and `schema_id`
(see the module comment for the dead `payload_size` field of `types.rs`). -/
structure Header where
  flags : Flags
  schemaId : SchemaId
  deriving DecidableEq, Repr

/-- A 9-byte directory entry `(id: u32, type_code: u8, offset: u32)`. -/
structure DirectoryEntry where
  id : Nat
  typeCode : TypeCode
  offset : Nat
  deriving DecidableEq, Repr

/-- `ImprintRecord { header, directory, payload }`.  The payload is raw
bytes; values are decoded on demand. -/
structure ImprintRecord where
  header : Header
  directory : List DirectoryEntry
  payload : List Nat
  deriving DecidableEq, Repr

/-- The `Value` variant.  `float32`/`float64` carry the little-endian bit
pattern of the IEEE-754 payload; `int32`/`int64` carry the mathematical
integer of the two's-complement wire form. -/
inductive Value where
  | null
  | bool (b : Bool)
  | int32 (i : Int)
  | int64 (i : Int)
  | float32 (bits : Nat)
  | float64 (bits : Nat)
  | bytes (bs : List Nat)
  | string (s : String)
  | array (vs : List Value)
  | row (r : ImprintRecord)
  deriving Repr

/-- `Value::type_code`. -/
def Value.typeCode : Value → TypeCode
  | .null => .null
  | .bool _ => .bool
  | .int32 _ => .int32
  | .int64 _ => .int64
  | .float32 _ => .float32
  | .float64 _ => .float64
  | .bytes _ => .bytes
  | .string _ => .string
  | .array _ => .array
  | .row _ => .row

/-! ## Serialization (`serde.rs`, write side) -/

/-- `put_u64_le`: the eight little-endian bytes of a `u64`. -/
def putU64le (n : Nat) : List Nat :=
  [n % 256, n / 256 % 256, n / 2 ^ 16 % 256, n / 2 ^ 24 % 256,
   n / 2 ^ 32 % 256, n / 2 ^ 40 % 256, n / 2 ^ 48 % 256, n / 2 ^ 56 % 256]

/-- `put_i32_le`: two's-complement little-endian encoding of an `i32`. -/
def putI32le (i : Int) : List Nat := putU32le (i % 2 ^ 32).toNat

/-- `put_i64_le`. -/
def putI64le (i : Int) : List Nat := putU64le (i % 2 ^ 64).toNat

/-- UTF-8 bytes of a string (`str::as_bytes`). -/
def strBytes (s : String) : List Nat := s.toUTF8.toList.map (fun b => b.toNat)

/-- `String::from_utf8` modulo ownership: `none` on invalid UTF-8. -/
def strOfBytes? (bs : List Nat) : Option String :=
  String.fromUTF8? (ByteArray.mk (bs.map (fun b => UInt8.ofNat b)).toArray)

/-- `Write for DirectoryEntry`: 9 bytes. -/
def writeEntry (e : DirectoryEntry) : List Nat :=
  putU32le e.id ++ [e.typeCode.toByte] ++ putU32le e.offset

/-- `Write for Header`: magic, version, flags, schema id — 11 bytes. -/
def writeHeader (h : Header) : List Nat :=
  [0x49, 0x01, u8 h.flags.val] ++ putU32le h.schemaId.fieldspaceId ++
    putU32le h.schemaId.schemaHash

/-- `Write for ImprintRecord`: header, then (if the directory flag is set)
varint directory count and the 9-byte entries, then the payload verbatim. -/
def writeRecord (r : ImprintRecord) : List Nat :=
  writeHeader r.header ++
    (if r.header.flags.hasFieldDirectory then
      varintEncode (r.directory.length % 2 ^ 32) ++
        (r.directory.map writeEntry).flatten
    else []) ++
  r.payload

mutual

/-- `Write for Value`: the wire form of a value, or the schema errors the
source raises for empty or heterogeneous arrays. -/
def writeValue : Value → Except ImprintError (List Nat)
  | .null => .ok []
  | .bool b => .ok [if b then 1 else 0]
  | .int32 i => .ok (putI32le i)
  | .int64 i => .ok (putI64le i)
  | .float32 bits => .ok (putU32le bits)
  | .float64 bits => .ok (putU64le bits)
  | .bytes bs => .ok (varintEncode (bs.length % 2 ^ 32) ++ bs)
  | .string s => .ok (varintEncode ((strBytes s).length % 2 ^ 32) ++ strBytes s)
  | .array vs =>
    match vs with
    | [] => .error (.schemaError "empty array not allowed")
    | v0 :: _ =>
      match writeValuesLoop v0.typeCode vs with
      | .error e => .error e
      | .ok body =>
        .ok (v0.typeCode.toByte :: varintEncode (vs.length % 2 ^ 32) ++ body)
  | .row r => .ok (writeRecord r)

/-- The element loop of the array branch: each element's type code is
checked against the head's before it is written. -/
def writeValuesLoop (tc : TypeCode) : List Value → Except ImprintError (List Nat)
  | [] => .ok []
  | v :: vs =>
    if v.typeCode ≠ tc then .error (.schemaError "array elements must have same type")
    else
      match writeValue v with
      | .error e => .error e
      | .ok w =>
        match writeValuesLoop tc vs with
        | .error e => .error e
        | .ok rest => .ok (w ++ rest)

end

/-! ## Deserialization (`serde.rs`, read side)

Panics (out-of-bounds buffer access and `unwrap`) are modelled by the outer
`Option` layer: `none` is a panic, `some (.error e)` a returned error. -/

/-- `get_u64_le`. -/
def getU64le (b0 b1 b2 b3 b4 b5 b6 b7 : Nat) : Nat :=
  getU32le b0 b1 b2 b3 + 2 ^ 32 * getU32le b4 b5 b6 b7

/-- Reinterpret a `u32` bit pattern as a two's-complement `i32`. -/
def decodeI32 (n : Nat) : Int :=
  if n < 2 ^ 31 then (n : Int) else (n : Int) - 2 ^ 32

/-- Reinterpret a `u64` bit pattern as a two's-complement `i64`. -/
def decodeI64 (n : Nat) : Int :=
  if n < 2 ^ 63 then (n : Int) else (n : Int) - 2 ^ 64

/-- `Read for Header` (serde.rs:283-308): the length check comes first, then
magic, then version.  Only `flags` and `schema_id` are populated (the struct
literal in the source carries exactly those two fields). -/
def headerRead (bytes : List Nat) : Except ImprintError (Header × Nat) :=
  if bytes.length < 11 then .error (.bufferUnderflow 11 bytes.length)
  else
    match bytes with
    | b0 :: b1 :: b2 :: b3 :: b4 :: b5 :: b6 :: b7 :: b8 :: b9 :: b10 :: _ =>
      if u8 b0 ≠ 0x49 then .error (.invalidMagic (u8 b0))
      else if u8 b1 ≠ 0x01 then .error (.unsupportedVersion (u8 b1))
      else .ok (⟨⟨u8 b2⟩, ⟨getU32le b3 b4 b5 b6, getU32le b7 b8 b9 b10⟩⟩, 11)
    | _ => .error (.bufferUnderflow 11 bytes.length)

/-- `Read for DirectoryEntry`: 9 bytes, length-checked. -/
def dirEntryRead (bytes : List Nat) : Except ImprintError (DirectoryEntry × Nat) :=
  if bytes.length < 9 then .error (.bufferUnderflow 9 bytes.length)
  else
    match bytes with
    | b0 :: b1 :: b2 :: b3 :: b4 :: b5 :: b6 :: b7 :: b8 :: _ =>
      match typeCodeOfByte (u8 b4) with
      | .error e => .error e
      | .ok tc => .ok (⟨getU32le b0 b1 b2 b3, tc, getU32le b5 b6 b7 b8⟩, 9)
    | _ => .error (.bufferUnderflow 9 bytes.length)

/-- The `for _ in 0..count` loop of `Read for ImprintRecord`. -/
def readEntries : Nat → List Nat → Except ImprintError (List DirectoryEntry × Nat)
  | 0, _ => .ok ([], 0)
  | n + 1, bytes =>
    match dirEntryRead bytes with
    | .error e => .error e
    | .ok (e, sz) =>
      match readEntries n (bytes.drop sz) with
      | .error er => .error er
      | .ok (es, rest) => .ok (e :: es, sz + rest)

/-- `Read for ImprintRecord` (serde.rs:327-361).  Note the final
`bytes_read = bytes.len()` of the source: the accumulated byte count is
*overwritten* with the remaining (payload) length, so the returned count is
the payload length, not the total consumed. -/
def imprintRecordRead (bytes : List Nat) :
    Except ImprintError (ImprintRecord × Nat) :=
  match headerRead bytes with
  | .error e => .error e
  | .ok (header, hsize) =>
    let bytes1 := bytes.drop hsize
    if header.flags.hasFieldDirectory then
      match varintDecode bytes1 with
      | .error e => .error e
      | .ok (count, csize) =>
        let bytes2 := bytes1.drop csize
        match readEntries count bytes2 with
        | .error e => .error e
        | .ok (directory, esize) =>
          let payload := bytes2.drop esize
          .ok (⟨header, directory, payload⟩, payload.length)
    else
      .ok (⟨header, [], bytes1⟩, bytes1.length)

/-- Lexicographic helper for the termination of `valueRead`/`readElems`. -/
theorem lexLeft {x y : Nat} (p q : Nat × Nat) (h : x < y) :
    Prod.Lex (· < ·) (Prod.Lex (· < ·) (· < ·)) (x, p) (y, q) :=
  Prod.Lex.left _ _ h

/-- Lexicographic helper: first components equal, second decreases. -/
theorem lexMid {x n m k l : Nat} (h : k < l) :
    Prod.Lex (· < ·) (Prod.Lex (· < ·) (· < ·)) (x, k, n) (x, l, m) :=
  Prod.Lex.right _ (Prod.Lex.left _ _ h)

/-- Lexicographic helper: first non-increasing, third decreases. -/
theorem lexLast {x y n m k : Nat} (hxy : x ≤ y) (hnm : n < m) :
    Prod.Lex (· < ·) (Prod.Lex (· < ·) (· < ·)) (x, k, n) (y, k, m) := by
  rcases Nat.lt_or_ge x y with h | h
  · exact Prod.Lex.left _ _ h
  · have he : x = y := Nat.le_antisymm hxy h
    subst he
    exact Prod.Lex.right _ (Prod.Lex.right _ hnm)

mutual

/-- `ValueRead for Value` (serde.rs:85-208).  Every branch length-checks
before consuming — except the Array branch, whose `bytes.get_u8()` for the
element-type byte has no check and panics (`none`) on an empty buffer. -/
def valueRead (tc : TypeCode) (bytes : List Nat) :
    Option (Except ImprintError (Value × Nat)) :=
  match tc with
  | .null => some (.ok (.null, 0))
  | .bool =>
    match bytes with
    | [] => some (.error (.bufferUnderflow 1 0))
    | b :: _ =>
      if u8 b = 0 then some (.ok (.bool false, 1))
      else if u8 b = 1 then some (.ok (.bool true, 1))
      else some (.error (.schemaError "invalid boolean value"))
  | .int32 =>
    if bytes.length < 4 then some (.error (.bufferUnderflow 4 bytes.length))
    else
      match bytes with
      | b0 :: b1 :: b2 :: b3 :: _ =>
        some (.ok (.int32 (decodeI32 (getU32le b0 b1 b2 b3)), 4))
      | _ => none
  | .int64 =>
    if bytes.length < 8 then some (.error (.bufferUnderflow 8 bytes.length))
    else
      match bytes with
      | b0 :: b1 :: b2 :: b3 :: b4 :: b5 :: b6 :: b7 :: _ =>
        some (.ok (.int64 (decodeI64 (getU64le b0 b1 b2 b3 b4 b5 b6 b7)), 8))
      | _ => none
  | .float32 =>
    if bytes.length < 4 then some (.error (.bufferUnderflow 4 bytes.length))
    else
      match bytes with
      | b0 :: b1 :: b2 :: b3 :: _ =>
        some (.ok (.float32 (getU32le b0 b1 b2 b3), 4))
      | _ => none
  | .float64 =>
    if bytes.length < 8 then some (.error (.bufferUnderflow 8 bytes.length))
    else
      match bytes with
      | b0 :: b1 :: b2 :: b3 :: b4 :: b5 :: b6 :: b7 :: _ =>
        some (.ok (.float64 (getU64le b0 b1 b2 b3 b4 b5 b6 b7), 8))
      | _ => none
  | .bytes =>
    match varintDecode bytes with
    | .error e => some (.error e)
    | .ok (len, lenSize) =>
      let rest := bytes.drop lenSize
      if rest.length < len then some (.error (.bufferUnderflow len rest.length))
      else some (.ok (.bytes ((rest.take len).map u8), lenSize + len))
  | .string =>
    match varintDecode bytes with
    | .error e => some (.error e)
    | .ok (len, lenSize) =>
      let rest := bytes.drop lenSize
      if rest.length < len then some (.error (.bufferUnderflow len rest.length))
      else
        match strOfBytes? (rest.take len) with
        | none => some (.error .invalidUtf8String)
        | some s => some (.ok (.string s, lenSize + len))
  | .array =>
    match bytes with
    | [] => none
    | b :: rest =>
      match typeCodeOfByte (u8 b) with
      | .error e => some (.error e)
      | .ok elemTc =>
        match varintDecode rest with
        | .error e => some (.error e)
        | .ok (len, lenSize) =>
          match readElems elemTc len (rest.drop lenSize) with
          | none => none
          | some (.error e) => some (.error e)
          | some (.ok (vs, consumed)) =>
            some (.ok (.array vs, 1 + lenSize + consumed))
  | .row =>
    match imprintRecordRead bytes with
    | .error e => some (.error e)
    | .ok (r, sz) => some (.ok (.row r, sz))
termination_by (bytes.length, 0, 0)
decreasing_by
  all_goals simp_wf
  all_goals (apply lexLeft; omega)

/-- The element loop of the Array branch. -/
def readElems (tc : TypeCode) (n : Nat) (bytes : List Nat) :
    Option (Except ImprintError (List Value × Nat)) :=
  match n with
  | 0 => some (.ok ([], 0))
  | n + 1 =>
    match valueRead tc bytes with
    | none => none
    | some (.error e) => some (.error e)
    | some (.ok (v, sz)) =>
      match readElems tc n (bytes.drop sz) with
      | none => none
      | some (.error e) => some (.error e)
      | some (.ok (vs, rest)) => some (.ok (v :: vs, sz + rest))
termination_by (bytes.length, 1, n)
decreasing_by
  all_goals simp_wf
  · exact lexMid (by omega)
  · exact lexLast (by omega) (by omega)

end

/-! ## Field access (`types.rs`) -/

/-- `Bytes::slice(a..b)` / `&buf[a..b]`: `none` models the panic on an
out-of-range or inverted range. -/
def byteSlice (l : List Nat) (a b : Nat) : Option (List Nat) :=
  if a ≤ b ∧ b ≤ l.length then some ((l.drop a).take (b - a)) else none

/-- The halving loop of `slice::binary_search_by_key` on the interval
`[lo, hi)`; `some idx` models `Ok(idx)` (the callers use only the `Ok`
case). -/
def binarySearchGo (dir : List DirectoryEntry) (key : Nat) (lo hi : Nat) :
    Option Nat :=
  if _h : lo < hi then
    let mid := lo + (hi - lo) / 2
    match dir.get? mid with
    | none => none
    | some e =>
      if e.id < key then binarySearchGo dir key (mid + 1) hi
      else if key < e.id then binarySearchGo dir key lo mid
      else some mid
  else none
termination_by hi - lo
decreasing_by
  all_goals simp_wf
  all_goals omega

/-- `directory.binary_search_by_key(&field_id, |e| e.id)`. -/
def binarySearchByKey (dir : List DirectoryEntry) (key : Nat) : Option Nat :=
  binarySearchGo dir key 0 dir.length

/-- `ImprintRecord::get_value`: binary-search the directory; on a hit,
slice the payload **from the entry's offset to the payload end** and decode
on demand. -/
def ImprintRecord.getValue (r : ImprintRecord) (fieldId : Nat) :
    Option (Except ImprintError (Option Value)) :=
  match binarySearchByKey r.directory fieldId with
  | none => some (.ok none)
  | some idx =>
    match r.directory.get? idx with
    | none => none
    | some e =>
      match byteSlice r.payload e.offset r.payload.length with
      | none => none
      | some valueBytes =>
        match valueRead e.typeCode valueBytes with
        | none => none
        | some (.error err) => some (.error err)
        | some (.ok (v, _)) => some (.ok (some v))

/-- `ImprintRecord::get_raw_bytes`: the slice from the entry's offset to the
next entry's offset (or the payload end), undecoded. -/
def ImprintRecord.getRawBytes (r : ImprintRecord) (fieldId : Nat) :
    Option (Option (List Nat)) :=
  match binarySearchByKey r.directory fieldId with
  | none => some none
  | some idx =>
    match r.directory.get? idx with
    | none => none
    | some e =>
      let stop :=
        match r.directory.get? (idx + 1) with
        | some e2 => e2.offset
        | none => r.payload.length
      match byteSlice r.payload e.offset stop with
      | none => none
      | some bs => some (some bs)

/-! ## Builder (`writer.rs`)

`ImprintWriter` accumulates fields in a `BTreeMap<u32, Value>`, so `build`
iterates them in strictly ascending id order; the model takes that sorted
association list directly. -/

/-- The field loop of `ImprintWriter::build`: push the directory entry (with
the current payload length as offset), then append the value's wire form. -/
def buildFields : List (Nat × Value) → List DirectoryEntry → List Nat →
    Except ImprintError (List DirectoryEntry × List Nat)
  | [], dir, payload => .ok (dir, payload)
  | (id, v) :: rest, dir, payload =>
    match writeValue v with
    | .error e => .error e
    | .ok w => buildFields rest (dir ++ [⟨id, v.typeCode, payload.length⟩]) (payload ++ w)

/-- `ImprintWriter::build`: header flags are `FIELD_DIRECTORY` (0x01). -/
def build (schemaId : SchemaId) (fields : List (Nat × Value)) :
    Except ImprintError ImprintRecord :=
  match buildFields fields [] [] with
  | .error e => .error e
  | .ok (directory, payload) => .ok ⟨⟨⟨1⟩, schemaId⟩, directory, payload⟩

/-! ## Operations (`ops.rs`) -/

/-- `Vec::dedup`: drop consecutive duplicates, keeping the first of a run. -/
def dedupKeepFirst : List Nat → List Nat
  | [] => []
  | [a] => [a]
  | a :: b :: rest =>
    if a = b then dedupKeepFirst (a :: rest) else a :: dedupKeepFirst (b :: rest)
termination_by l => l.length

/-- `sort_unstable` followed by `dedup` on the requested field ids. -/
def sortDedup (ids : List Nat) : List Nat :=
  dedupKeepFirst (ids.mergeSort (fun a b => decide (a ≤ b)))

/-- The two-cursor walk of `Project::project` (ops.rs:28-55), faithfully
including its cursor discipline: the directory cursor advances on *every*
iteration, the requested-ids cursor only on a match.  Arithmetic on offsets
is `u32` in the source; the theorems' well-formedness hypotheses keep it in
range. -/
def projectWalk (payloadLen : Nat) :
    List DirectoryEntry → List Nat → Nat → List DirectoryEntry × List (Nat × Nat)
  | [], _, _ => ([], [])
  | _ :: _, [], _ => ([], [])
  | field :: restDir, target :: restIds, currentOffset =>
    let nextOffset :=
      match restDir with
      | e :: _ => e.offset
      | [] => payloadLen
    if field.id = target then
      let fieldLength := nextOffset - field.offset
      let (dir, ranges) := projectWalk payloadLen restDir restIds (currentOffset + fieldLength)
      (⟨field.id, field.typeCode, currentOffset⟩ :: dir, (field.offset, nextOffset) :: ranges)
    else
      projectWalk payloadLen restDir (target :: restIds) currentOffset

/-- `Project::project`: sort+dedup the ids, walk, then copy the recorded
ranges into the new payload.  The projected header keeps the flags and
fieldspace id and stamps the `0xdeadbeef` sentinel schema hash. -/
def project (r : ImprintRecord) (fieldIds : List Nat) : Option ImprintRecord :=
  let sortedFieldIds := sortDedup fieldIds
  let walked := projectWalk r.payload.length r.directory sortedFieldIds 0
  match walked.2.mapM (fun rg => byteSlice r.payload rg.1 rg.2) with
  | none => none
  | some pieces =>
    some ⟨⟨r.header.flags, ⟨r.header.schemaId.fieldspaceId, 0xdeadbeef⟩⟩,
          walked.1, pieces.flatten⟩

/-- The cursor loop of `Merge::merge_with_opts` (ops.rs:117-160).  `none`
models the `unwrap()` panics on `get_raw_bytes`.  On a tie the entry comes
from `A` (left wins) and, unless filtering, `B`'s raw bytes are appended
right after `A`'s with no directory entry (zombie bytes). -/
def mergeLoop (A B : ImprintRecord) (filter : Bool) :
    List DirectoryEntry → List DirectoryEntry → Nat →
    Option (List DirectoryEntry × List Nat)
  | [], [], _ => some ([], [])
  | a :: da1, [], off =>
    match A.getRawBytes a.id with
    | some (some bsA) =>
      match mergeLoop A B filter da1 [] (off + bsA.length) with
      | some (dir, payload) => some (⟨a.id, a.typeCode, off⟩ :: dir, bsA ++ payload)
      | none => none
    | _ => none
  | [], b :: db1, off =>
    match B.getRawBytes b.id with
    | some (some bsB) =>
      match mergeLoop A B filter [] db1 (off + bsB.length) with
      | some (dir, payload) => some (⟨b.id, b.typeCode, off⟩ :: dir, bsB ++ payload)
      | none => none
    | _ => none
  | a :: da1, b :: db1, off =>
    if a.id ≤ b.id then
      if a.id = b.id then
        if filter then
          match A.getRawBytes a.id with
          | some (some bsA) =>
            match mergeLoop A B filter da1 db1 (off + bsA.length) with
            | some (dir, payload) => some (⟨a.id, a.typeCode, off⟩ :: dir, bsA ++ payload)
            | none => none
          | _ => none
        else
          match B.getRawBytes b.id with
          | some (some bsB) =>
            match A.getRawBytes a.id with
            | some (some bsA) =>
              match mergeLoop A B filter da1 db1 (off + (bsA.length + bsB.length)) with
              | some (dir, payload) =>
                some (⟨a.id, a.typeCode, off⟩ :: dir, bsA ++ (bsB ++ payload))
              | none => none
            | _ => none
          | _ => none
      else
        match A.getRawBytes a.id with
        | some (some bsA) =>
          match mergeLoop A B filter da1 (b :: db1) (off + bsA.length) with
          | some (dir, payload) => some (⟨a.id, a.typeCode, off⟩ :: dir, bsA ++ payload)
          | none => none
        | _ => none
    else
      match B.getRawBytes b.id with
      | some (some bsB) =>
        match mergeLoop A B filter (a :: da1) db1 (off + bsB.length) with
        | some (dir, payload) => some (⟨b.id, b.typeCode, off⟩ :: dir, bsB ++ payload)
        | none => none
      | _ => none
termination_by da db _ => da.length + db.length
decreasing_by all_goals simp_wf <;> omega

/-- `Merge::merge_with_opts`: header flags and schema id come from `A`. -/
def mergeWithOpts (A B : ImprintRecord) (filterDuplicatePayloads : Bool) :
    Option ImprintRecord :=
  match mergeLoop A B filterDuplicatePayloads A.directory B.directory 0 with
  | none => none
  | some (newDirectory, newPayload) =>
    some ⟨⟨A.header.flags, A.header.schemaId⟩, newDirectory, newPayload⟩

/-- `Merge::merge`: default options, i.e. `filter_duplicate_payloads = false`. -/
def merge (A B : ImprintRecord) : Option ImprintRecord := mergeWithOpts A B false

/-! ## Varint lemmas -/

/-- Disjoint bitwise-or is addition: the accumulator of the decode loop has
all bits below the shift. -/
theorem lor_shl_eq_add (a b k : Nat) (h : a < 2 ^ k) :
    a ||| (b <<< k) = a + b * 2 ^ k := by
  induction k generalizing a b with
  | zero =>
    interval_cases a
    simp [Nat.shiftLeft_eq]
  | succ k ih =>
    have hbit : a = Nat.bit (a % 2 = 1) (a / 2) := by
      simp only [Nat.bit]
      rcases Nat.mod_two_eq_zero_or_one a with h2 | h2 <;> simp [h2] <;> omega
    have hsh : b <<< (k + 1) = Nat.bit false (b <<< k) := by
      simp only [Nat.bit, cond_false, Nat.shiftLeft_eq, pow_succ]; ring
    have hdiv : a / 2 < 2 ^ k := by
      rw [pow_succ] at h; omega
    have hih := ih (a / 2) b hdiv
    clear ih
    conv_lhs => rw [hbit, hsh]
    rw [Nat.lor_bit, hih]
    clear hbit hsh hih
    rw [pow_succ, ← mul_assoc]
    rcases Nat.mod_two_eq_zero_or_one a with h2 | h2 <;>
      simp only [Nat.bit, h2, decide_eq_true_eq, Bool.or_false] <;> simp <;> omega

theorem varintEncode_small {v : Nat} (h : v < 128) : varintEncode v = [v] := by
  rw [varintEncode]
  simp [Nat.div_eq_of_lt h, Nat.mod_eq_of_lt h]

theorem varintEncode_large {v : Nat} (h : 128 ≤ v) :
    varintEncode v = (v % 128 + 128) :: varintEncode (v / 128) := by
  rw [varintEncode]
  have hne : ¬ v / 128 = 0 := by omega
  rw [dif_neg hne]

theorem varintEncode_length_pos (v : Nat) : 1 ≤ (varintEncode v).length := by
  rcases Nat.lt_or_ge v 128 with h | h
  · simp [varintEncode_small h]
  · simp [varintEncode_large h]

/-- The generalized invariant of the decode loop run on an encoder output
followed by arbitrary trailing bytes (the loop stops at the final,
continuation-clear byte and never looks at the suffix). -/
theorem varintDecodeLoop_encode (v : Nat) :
    ∀ extra acc shift br, br ≤ 4 → shift = 7 * br → v < 2 ^ (32 - 7 * br) →
      acc < 2 ^ shift →
      varintDecodeLoop (varintEncode v ++ extra) acc shift br =
        .ok (acc + v * 2 ^ shift, br + (varintEncode v).length) := by
  induction v using Nat.strong_induction_on with
  | _ v ih =>
    intro extra acc shift br hbr hsh hv hacc
    rcases Nat.lt_or_ge v 128 with hsmall | hlarge
    · have hmod : v % 128 = v := Nat.mod_eq_of_lt hsmall
      have hu8v : u8 v = v := Nat.mod_eq_of_lt (by omega)
      have hnot5 : ¬ 5 ≤ br := by omega
      have hnotovf : ¬ (32 ≤ shift ∨ (shift = 28 ∧ 15 < v)) := by
        rintro (h32 | ⟨h28, hbig⟩)
        · omega
        · have hbr4 : br = 4 := by omega
          subst hbr4
          norm_num at hv
          omega
      rw [varintEncode_small hsmall, List.cons_append, varintDecodeLoop]
      simp only [if_neg hnot5, hu8v, hmod, if_neg hnotovf, if_pos hsmall]
      rw [lor_shl_eq_add _ _ _ hacc]
      simp
    · have hbyte : v % 128 + 128 < 256 := by omega
      have hu8v : u8 (v % 128 + 128) = v % 128 + 128 := Nat.mod_eq_of_lt hbyte
      have hseg : (v % 128 + 128) % 128 = v % 128 := by omega
      have hbr3 : br ≤ 3 := by
        by_contra hc
        have hbr4 : br = 4 := by omega
        subst hbr4
        norm_num at hv
        omega
      have hnot5 : ¬ 5 ≤ br := by omega
      have hnotovf : ¬ (32 ≤ shift ∨ (shift = 28 ∧ 15 < v % 128)) := by
        rintro (h32 | ⟨h28, _⟩) <;> omega
      have hnotlast : ¬ v % 128 + 128 < 128 := by omega
      rw [varintEncode_large hlarge, List.cons_append, varintDecodeLoop]
      simp only [if_neg hnot5, hu8v, hseg, if_neg hnotovf, if_neg hnotlast]
      have hrec := ih (v / 128) (Nat.div_lt_self (by omega) (by omega))
        extra ((acc ||| (v % 128) <<< shift)) (shift + 7) (br + 1)
        (by omega) (by omega)
        (by
          have h1 : v < 2 ^ (32 - 7 * br) := hv
          have h2 : 32 - 7 * (br + 1) = 32 - 7 * br - 7 := by omega
          rw [h2]
          have h7le : 7 ≤ 32 - 7 * br := by omega
          have h3 : (2 : Nat) ^ (32 - 7 * br) = 2 ^ (32 - 7 * br - 7) * 2 ^ 7 := by
            rw [← pow_add]
            congr 1
            omega
          rw [h3] at h1
          exact Nat.div_lt_of_lt_mul (by norm_num at h1 ⊢; omega))
        (by
          rw [lor_shl_eq_add _ _ _ hacc]
          have hb : v % 128 ≤ 127 := by omega
          have h128 : (2 : Nat) ^ (shift + 7) = 2 ^ shift * 128 := by
            rw [pow_add]; norm_num
          rw [h128]
          nlinarith [Nat.pos_pow_of_pos shift (show 0 < 2 by norm_num)])
      rw [hrec]
      rw [lor_shl_eq_add _ _ _ hacc]
      have harith : acc + v % 128 * 2 ^ shift + v / 128 * 2 ^ (shift + 7) =
          acc + v * 2 ^ shift := by
        have h128 : (2 : Nat) ^ (shift + 7) = 2 ^ shift * 128 := by
          rw [pow_add]; norm_num
        rw [h128]
        nlinarith [Nat.div_add_mod v 128]
      rw [harith]
      simp only [List.length_cons]
      have hfin : br + 1 + (varintEncode (v / 128)).length =
          br + ((varintEncode (v / 128)).length + 1) := by omega
      rw [hfin]

/-- The encoded value fits in `7 * length` bits. -/
theorem varintEncode_lt (v : Nat) : v < 2 ^ (7 * (varintEncode v).length) := by
  induction v using Nat.strong_induction_on with
  | _ v ih =>
    rcases Nat.lt_or_ge v 128 with h | h
    · rw [varintEncode_small h]
      simpa using h
    · rw [varintEncode_large h]
      have hrec := ih (v / 128) (Nat.div_lt_self (by omega) (by omega))
      have hstep : 7 * ((varintEncode (v / 128)).length + 1) =
          7 * (varintEncode (v / 128)).length + 7 := by ring
      simp only [List.length_cons, hstep, pow_add]
      have : v < (2 ^ (7 * (varintEncode (v / 128)).length)) * 2 ^ 7 := by
        have hv128 : v / 128 < 2 ^ (7 * (varintEncode (v / 128)).length) := hrec
        have := Nat.lt_succ_of_le (Nat.div_add_mod v 128 ▸ le_refl v)
        nlinarith [Nat.div_add_mod v 128, Nat.mod_lt v (show 0 < 128 by norm_num)]
      simpa using this

/-- The encoder emits the shortest LEB128 form: any bit budget `7 * m`
(`m ≥ 1`) that holds `v` is at least the emitted length. -/
theorem varintEncode_length_min (v : Nat) :
    ∀ m, 1 ≤ m → v < 2 ^ (7 * m) → (varintEncode v).length ≤ m := by
  induction v using Nat.strong_induction_on with
  | _ v ih =>
    intro m hm hv
    rcases Nat.lt_or_ge v 128 with h | h
    · rw [varintEncode_small h]
      simpa using hm
    · rw [varintEncode_large h]
      have hm2 : 2 ≤ m := by
        by_contra hc
        have : m = 1 := by omega
        subst this
        norm_num at hv
        omega
      have hdiv : v / 128 < 2 ^ (7 * (m - 1)) := by
        have hsplit : (2 : Nat) ^ (7 * m) = 2 ^ (7 * (m - 1)) * 2 ^ 7 := by
          rw [← pow_add]
          congr 1
          omega
        rw [hsplit] at hv
        exact Nat.div_lt_of_lt_mul (by norm_num at hv ⊢; omega)
      have := ih (v / 128) (Nat.div_lt_self (by omega) (by omega)) (m - 1) (by omega) hdiv
      simp only [List.length_cons]
      omega

/-- Wire structure: every byte before the last carries the continuation bit
(`0x80 ≤ b < 0x100`); the last byte has it clear. -/
theorem varintEncode_byte_structure (v : Nat) :
    (∀ b ∈ (varintEncode v).dropLast, 128 ≤ b ∧ b < 256) ∧
    (∀ l, (varintEncode v).getLast? = some l → l < 128) := by
  induction v using Nat.strong_induction_on with
  | _ v ih =>
    rcases Nat.lt_or_ge v 128 with h | h
    · rw [varintEncode_small h]
      constructor
      · intro b hb
        simp at hb
      · intro l hl
        simp at hl
        omega
    · rw [varintEncode_large h]
      have hrec := ih (v / 128) (Nat.div_lt_self (by omega) (by omega))
      obtain ⟨w, ws, hw⟩ : ∃ w ws, varintEncode (v / 128) = w :: ws := by
        cases hvw : varintEncode (v / 128) with
        | nil =>
          have := varintEncode_length_pos (v / 128)
          rw [hvw] at this
          simp at this
        | cons w ws => exact ⟨w, ws, rfl⟩
      rw [hw] at hrec ⊢
      constructor
      · intro b hb
        rw [List.dropLast_cons₂] at hb
        rcases List.mem_cons.mp hb with hb | hb
        · subst hb
          omega
        · exact hrec.1 b hb
      · intro l hl
        rw [List.getLast?_cons_cons] at hl
        exact hrec.2 l hl

/-- C10: For every unsigned 32-bit value `v`, decoding the varint encoding
of `v` returns `(v, n)` where `n` is the (canonical, shortest) LEB128 length
of `v`, and the encoder emits exactly that shortest form: 7-bit groups
least-significant first, continuation bit set on every byte except the
last. -/
theorem c10_varint_roundtrip_canonical (v : Nat) (hv : v < 2 ^ 32) :
    varintDecode (varintEncode v) = .ok (v, (varintEncode v).length) ∧
    v < 2 ^ (7 * (varintEncode v).length) ∧
    (∀ m, 1 ≤ m → v < 2 ^ (7 * m) → (varintEncode v).length ≤ m) ∧
    (∀ b ∈ (varintEncode v).dropLast, 128 ≤ b ∧ b < 256) ∧
    (∀ l, (varintEncode v).getLast? = some l → l < 128) := by
  refine ⟨?_, varintEncode_lt v, varintEncode_length_min v,
    (varintEncode_byte_structure v).1, (varintEncode_byte_structure v).2⟩
  have := varintDecodeLoop_encode v [] 0 0 0 (by omega) (by omega) (by simpa using hv)
    (by norm_num)
  unfold varintDecode
  simpa using this

/-- Witness for C10 at `v = 300`. -/
theorem c10_varint_roundtrip_canonical_witness :
    300 < 2 ^ 32 ∧
      varintDecode (varintEncode 300) = .ok (300, (varintEncode 300).length) :=
  ⟨by norm_num, (c10_varint_roundtrip_canonical 300 (by norm_num)).1⟩

/-! ## Header parsing (C9) -/

/-- C9: Parsing a record's header fails with invalid magic exactly when the
first byte is not `0x49`, with unsupported version exactly when the first
byte is `0x49` and the second is not `0x01`, and with buffer underflow when
fewer than 11 bytes are available; in particular the 2-byte input
`0x49 0x01` fails with buffer underflow, and full-length inputs beginning
`0x00 0x01 0x00` and `0x49 0xFF 0x00` fail with invalid magic and
unsupported version respectively. -/
theorem c9_header_validation :
    (∀ bs : List Nat, bs.length < 11 →
      headerRead bs = .error (.bufferUnderflow 11 bs.length)) ∧
    (∀ b0 b1 b2 b3 b4 b5 b6 b7 b8 b9 b10 : Nat, ∀ rest : List Nat, b0 < 256 →
      (headerRead (b0 :: b1 :: b2 :: b3 :: b4 :: b5 :: b6 :: b7 :: b8 :: b9 :: b10 :: rest)
          = .error (.invalidMagic b0) ↔ b0 ≠ 0x49)) ∧
    (∀ b1 b2 b3 b4 b5 b6 b7 b8 b9 b10 : Nat, ∀ rest : List Nat, b1 < 256 →
      (headerRead (0x49 :: b1 :: b2 :: b3 :: b4 :: b5 :: b6 :: b7 :: b8 :: b9 :: b10 :: rest)
          = .error (.unsupportedVersion b1) ↔ b1 ≠ 0x01)) ∧
    headerRead [0x49, 0x01] = .error (.bufferUnderflow 11 2) ∧
    headerRead [0x00, 0x01, 0x00, 0, 0, 0, 0, 0, 0, 0, 0] = .error (.invalidMagic 0) ∧
    headerRead [0x49, 0xFF, 0x00, 0, 0, 0, 0, 0, 0, 0, 0]
      = .error (.unsupportedVersion 0xFF) := by
  refine ⟨?_, ?_, ?_, by rfl, by rfl, by rfl⟩
  · intro bs hlen
    unfold headerRead
    rw [if_pos hlen]
  · intro b0 b1 b2 b3 b4 b5 b6 b7 b8 b9 b10 rest hb0
    have hu : u8 b0 = b0 := Nat.mod_eq_of_lt hb0
    have hlen : ¬ (b0 :: b1 :: b2 :: b3 :: b4 :: b5 :: b6 :: b7 :: b8 :: b9 :: b10 :: rest).length < 11 := by
      simp
    by_cases h : b0 = 0x49
    · subst h
      simp only [headerRead, if_neg hlen, hu]
      norm_num
      split <;> simp
    · simp only [headerRead, if_neg hlen, hu, if_pos h]
      simp [h]
  · intro b1 b2 b3 b4 b5 b6 b7 b8 b9 b10 rest hb1
    have hu1 : u8 b1 = b1 := Nat.mod_eq_of_lt hb1
    have hlen : ¬ (0x49 :: b1 :: b2 :: b3 :: b4 :: b5 :: b6 :: b7 :: b8 :: b9 :: b10 :: rest).length < 11 := by
      simp
    by_cases h : b1 = 0x01
    · subst h
      simp only [headerRead, u8]
      norm_num
      split <;> simp
    · simp only [headerRead, if_neg hlen, hu1]
      simp [h, u8]

/-- Witness for C9: the underflow clause applied at a concrete 1-byte
input, and the magic clause at a concrete full-length input. -/
theorem c9_header_validation_witness :
    headerRead [0x49] = .error (.bufferUnderflow 11 1) ∧
    headerRead [7, 1, 0, 0, 0, 0, 0, 0, 0, 0, 0] = .error (.invalidMagic 7) := by
  constructor
  · exact c9_header_validation.1 [0x49] (by norm_num)
  · exact (c9_header_validation.2.1 7 1 0 0 0 0 0 0 0 0 0 [] (by norm_num)).mpr (by norm_num)

/-! ## Value decoding at the buffer boundary (C8) -/

/-- C8 (code bug witness): the Array branch of `ValueRead for Value` calls
`bytes.get_u8()` for the element-type byte with no remaining-bytes check, so
decoding an Array from an empty buffer panics (modelled `none`) instead of
returning `BufferUnderflow`; the checked branches (e.g. Bool, Int32) do
return buffer-underflow errors as the claim describes. -/
theorem c8_array_branch_panics :
    valueRead .array [] = none ∧
    valueRead .bool [] = some (.error (.bufferUnderflow 1 0)) ∧
    valueRead .int32 [1, 2] = some (.error (.bufferUnderflow 4 2)) := by
  refine ⟨?_, ?_, ?_⟩ <;> simp [valueRead]

/-! ## Concrete records used to evaluate the code at failing inputs -/

/-- A builder-shaped record with no fields: directory flag set, empty
directory, empty payload (`ImprintWriter::new(..).build()`). -/
def emptyRec : ImprintRecord := ⟨⟨⟨1⟩, ⟨1, 2⟩⟩, [], []⟩

/-- A builder-shaped record `{5: Bool(true)}`. -/
def recOnly5 : ImprintRecord := ⟨⟨⟨1⟩, ⟨1, 2⟩⟩, [⟨5, .bool, 0⟩], [1]⟩

/-- The concrete wire form of `emptyRec`: 11 header bytes and the varint
directory count 0. -/
theorem writeRecord_emptyRec :
    writeRecord emptyRec = [0x49, 0x01, 1, 1, 0, 0, 0, 2, 0, 0, 0, 0] := by
  simp [writeRecord, writeHeader, emptyRec, u8, putU32le, Flags.hasFieldDirectory,
    varintEncode_small]

/-- C2 (code bug witness): `Read for ImprintRecord` reports a consumed-byte
count equal to the *payload* length, not the full input length: parsing the
12-byte wire form of the empty record returns the record with
`bytes_consumed = 0` (the source overwrites `bytes_read` with `bytes.len()`
at serde.rs:350), while the claim demands 12. -/
theorem c2_bytes_consumed_is_payload_length :
    writeRecord emptyRec = [0x49, 0x01, 1, 1, 0, 0, 0, 2, 0, 0, 0, 0] ∧
    (writeRecord emptyRec).length = 12 ∧
    imprintRecordRead (writeRecord emptyRec) = .ok (emptyRec, 0) := by
  refine ⟨writeRecord_emptyRec, by rw [writeRecord_emptyRec]; rfl,
    by rw [writeRecord_emptyRec]; rfl⟩

/-- C1 (code bug witness): projecting `{5: Bool(true)}` onto the id list
`[3, 5]` returns an *empty* record even though id `5` is present in both the
record and the requested list: on the mismatch `5 ≠ 3` the walk in
`Project::project` advances the directory cursor (not the smaller requested
id), skating past the entry for 5. -/
theorem c1_project_drops_requested_field :
    sortDedup [3, 5] = [3, 5] ∧
    recOnly5.directory.map DirectoryEntry.id = [5] ∧
    project recOnly5 [3, 5] = some ⟨⟨⟨1⟩, ⟨1, 0xdeadbeef⟩⟩, [], []⟩ := by
  have hsd : sortDedup [3, 5] = [3, 5] := by
    simp [sortDedup, List.mergeSort, dedupKeepFirst]
  refine ⟨hsd, by rfl, ?_⟩
  simp [project, hsd, projectWalk, recOnly5, byteSlice, List.mapM, List.mapM.loop]

/-! ## Merge evaluations (C4, C5, C6) -/

/-- A builder-shaped record `{1: Row(emptyRec)}`: its payload is the full
wire form of the nested record (12 bytes). -/
def recRow1 : ImprintRecord := ⟨⟨⟨1⟩, ⟨1, 2⟩⟩, [⟨1, .row, 0⟩], writeRecord emptyRec⟩

/-- A builder-shaped record `{2: Bool(true)}`. -/
def recBool2 : ImprintRecord := ⟨⟨⟨1⟩, ⟨2, 3⟩⟩, [⟨2, .bool, 0⟩], [1]⟩

/-- A builder-shaped record `{1: Bool(true)}`. -/
def recBool1 : ImprintRecord := ⟨⟨⟨1⟩, ⟨1, 2⟩⟩, [⟨1, .bool, 0⟩], [1]⟩

/-- A builder-shaped record `{1: Bool(false)}`. -/
def recBool1f : ImprintRecord := ⟨⟨⟨1⟩, ⟨2, 3⟩⟩, [⟨1, .bool, 0⟩], [0]⟩

/-- A builder-shaped record `{1: Null}`: the Null wire form is empty. -/
def recNull1 : ImprintRecord := ⟨⟨⟨1⟩, ⟨2, 3⟩⟩, [⟨1, .null, 0⟩], []⟩

/-- C5 (code bug witness): left-wins fails for a nested Row field.
`merge({1: Row(emptyRec)}, {2: Bool(true)})` copies the Row's 12 raw bytes
and appends Bool's byte after them, but `get_value` (types.rs:278) slices
from the entry's offset to the *end* of the payload — not to the next
entry's offset as §4.3 of the spec prescribes — so the nested record
re-parses with the trailing `0x01` absorbed into its payload:
`merge(A,B).get_value(1)` is `Row` of a record with payload `[1]`, while
`A.get_value(1)` is `Row` of a record with empty payload. -/
theorem c5_merge_left_wins_fails_for_row :
    merge recRow1 recBool2 =
      some ⟨⟨⟨1⟩, ⟨1, 2⟩⟩, [⟨1, .row, 0⟩, ⟨2, .bool, 12⟩], writeRecord emptyRec ++ [1]⟩ ∧
    recRow1.getValue 1 = some (.ok (some (.row ⟨⟨⟨1⟩, ⟨1, 2⟩⟩, [], []⟩))) ∧
    ImprintRecord.getValue
        ⟨⟨⟨1⟩, ⟨1, 2⟩⟩, [⟨1, .row, 0⟩, ⟨2, .bool, 12⟩], writeRecord emptyRec ++ [1]⟩ 1 =
      some (.ok (some (.row ⟨⟨⟨1⟩, ⟨1, 2⟩⟩, [], [1]⟩))) ∧
    (⟨⟨⟨1⟩, ⟨1, 2⟩⟩, [], [1]⟩ : ImprintRecord) ≠ ⟨⟨⟨1⟩, ⟨1, 2⟩⟩, [], []⟩ := by
  rw [writeRecord_emptyRec]
  refine ⟨?_, ?_, ?_, by decide⟩
  · simp [merge, mergeWithOpts, mergeLoop, recRow1, recBool2, writeRecord_emptyRec,
      ImprintRecord.getRawBytes, binarySearchByKey, binarySearchGo, byteSlice]
  · simp only [recRow1, writeRecord_emptyRec]
    simp [ImprintRecord.getValue, binarySearchByKey, binarySearchGo, byteSlice,
      valueRead, imprintRecordRead, headerRead, u8, getU32le, Flags.hasFieldDirectory,
      varintDecode, varintDecodeLoop, readEntries]
  · simp [ImprintRecord.getValue, binarySearchByKey, binarySearchGo, byteSlice,
      valueRead, imprintRecordRead, headerRead, u8, getU32le, Flags.hasFieldDirectory,
      varintDecode, varintDecodeLoop, readEntries]

/-- C6 (counterexample): with `A = {1: Bool(true)}` and `B = {1: Null}`, the
two merge policies produce payloads of equal length (the zombie is the Null
value's zero-byte wire form) even though the records share id 1 — refuting
"equal iff no overlapping ids". -/
theorem c6_equal_payloads_with_overlap :
    mergeWithOpts recBool1 recNull1 true =
      some ⟨⟨⟨1⟩, ⟨1, 2⟩⟩, [⟨1, .bool, 0⟩], [1]⟩ ∧
    mergeWithOpts recBool1 recNull1 false =
      some ⟨⟨⟨1⟩, ⟨1, 2⟩⟩, [⟨1, .bool, 0⟩], [1]⟩ ∧
    recBool1.directory.map DirectoryEntry.id = [1] ∧
    recNull1.directory.map DirectoryEntry.id = [1] := by
  refine ⟨?_, ?_, by rfl, by rfl⟩ <;>
    simp [mergeWithOpts, mergeLoop, recBool1, recNull1,
      ImprintRecord.getRawBytes, binarySearchByKey, binarySearchGo, byteSlice]

/-- C4 (counterexample): the zombie-retention merge of `{1: Bool(true)}`
and `{1: Bool(false)}` has one directory entry whose decoded value
`Bool(true)` encodes to one byte, but a two-byte payload (the zombie byte
`0x00` follows) — so its payload length exceeds the sum of the encoded
wire-form lengths of the fields referenced by its directory. -/
theorem c4_zombie_merge_breaks_payload_sum :
    merge recBool1 recBool1f =
      some ⟨⟨⟨1⟩, ⟨1, 2⟩⟩, [⟨1, .bool, 0⟩], [1, 0]⟩ ∧
    ImprintRecord.getValue ⟨⟨⟨1⟩, ⟨1, 2⟩⟩, [⟨1, .bool, 0⟩], [1, 0]⟩ 1 =
      some (.ok (some (.bool true))) ∧
    writeValue (.bool true) = .ok [1] ∧
    ([1, 0] : List Nat).length = 2 := by
  refine ⟨?_, ?_, by rfl, by rfl⟩
  · simp [merge, mergeWithOpts, mergeLoop, recBool1, recBool1f,
      ImprintRecord.getRawBytes, binarySearchByKey, binarySearchGo, byteSlice]
  · simp [ImprintRecord.getValue, binarySearchByKey, binarySearchGo, byteSlice, valueRead, u8]

/-! ## Write/read round trip (C3) -/

/-- `u32` little-endian round trip. -/
theorem getU32le_parts (n : Nat) (h : n < 2 ^ 32) :
    getU32le (n % 256) (n / 256 % 256) (n / 2 ^ 16 % 256) (n / 2 ^ 24 % 256) = n := by
  have h16 : (2 : Nat) ^ 16 = 65536 := by norm_num
  have h24 : (2 : Nat) ^ 24 = 16777216 := by norm_num
  have h32 : (2 : Nat) ^ 32 = 4294967296 := by norm_num
  simp only [getU32le, u8, h16, h24]
  omega

theorem typeCodeOfByte_toByte (tc : TypeCode) : typeCodeOfByte tc.toByte = .ok tc := by
  cases tc <;> rfl

theorem toByte_lt (tc : TypeCode) : tc.toByte < 256 := by
  cases tc <;> simp [TypeCode.toByte]

/-- A 9-byte directory entry round-trips in front of any suffix. -/
theorem dirEntryRead_writeEntry (e : DirectoryEntry) (rest : List Nat)
    (hid : e.id < 2 ^ 32) (hoff : e.offset < 2 ^ 32) :
    dirEntryRead (writeEntry e ++ rest) = .ok (e, 9) := by
  have hu : ∀ m : Nat, u8 (m % 256) = m % 256 := fun m => Nat.mod_mod_of_dvd m (by norm_num)
  have htc : u8 e.typeCode.toByte = e.typeCode.toByte := Nat.mod_eq_of_lt (toByte_lt e.typeCode)
  simp only [writeEntry, putU32le, List.cons_append, List.nil_append, dirEntryRead,
    List.length_cons]
  rw [if_neg (by omega)]
  rw [htc, typeCodeOfByte_toByte]
  have h1 := getU32le_parts e.id hid
  have h2 := getU32le_parts e.offset hoff
  simp only [h1, h2]

theorem writeEntry_length (e : DirectoryEntry) : (writeEntry e).length = 9 := by
  simp [writeEntry, putU32le]

/-- The directory-entry loop round-trips the directory written in front of
any suffix, consuming 9 bytes per entry. -/
theorem readEntries_writeEntries (dir : List DirectoryEntry) (rest : List Nat)
    (hb : ∀ e ∈ dir, e.id < 2 ^ 32 ∧ e.offset < 2 ^ 32) :
    readEntries dir.length ((dir.map writeEntry).flatten ++ rest) =
      .ok (dir, 9 * dir.length) := by
  induction dir generalizing rest with
  | nil => simp [readEntries]
  | cons e dir ih =>
    have he := hb e (by simp)
    simp only [List.map_cons, List.flatten_cons, List.length_cons, List.append_assoc]
    have hdrop : (writeEntry e ++ ((dir.map writeEntry).flatten ++ rest)).drop 9 =
        (dir.map writeEntry).flatten ++ rest := by
      rw [← writeEntry_length e, List.drop_left]
    rw [readEntries]
    simp only [dirEntryRead_writeEntry e _ he.1 he.2, hdrop,
      ih rest (fun x hx => hb x (by simp [hx]))]
    have h9 : 9 * (dir.length + 1) = 9 + 9 * dir.length := by ring
    simp [h9]

theorem writeHeader_length (h : Header) : (writeHeader h).length = 11 := by
  simp [writeHeader, putU32le]

/-- The 11-byte header round-trips in front of any suffix. -/
theorem headerRead_writeHeader (h : Header) (rest : List Nat)
    (hf : h.flags.val < 256)
    (hfid : h.schemaId.fieldspaceId < 2 ^ 32)
    (hhash : h.schemaId.schemaHash < 2 ^ 32) :
    headerRead (writeHeader h ++ rest) = .ok (h, 11) := by
  have hu : u8 (u8 h.flags.val) = h.flags.val := by
    simp [u8, Nat.mod_eq_of_lt hf]
  simp only [writeHeader, putU32le, List.cons_append, List.nil_append, List.append_assoc,
    headerRead, List.length_cons]
  rw [if_neg (by omega)]
  have h49 : u8 0x49 = 0x49 := by rfl
  have h01 : u8 0x01 = 0x01 := by rfl
  rw [h49, h01]
  simp only [ne_eq, not_true_eq_false, if_false, hu]
  rw [getU32le_parts _ hfid, getU32le_parts _ hhash]

/-- The machine-integer range side conditions that the Rust struct types
(`u8` flags, `u32` ids/offsets/schema halves, `usize` directory length cast
to `u32`) guarantee statically. -/
def WFBounds (r : ImprintRecord) : Prop :=
  r.header.flags.val < 256 ∧
  r.header.schemaId.fieldspaceId < 2 ^ 32 ∧
  r.header.schemaId.schemaHash < 2 ^ 32 ∧
  r.directory.length < 2 ^ 32 ∧
  ∀ e ∈ r.directory, e.id < 2 ^ 32 ∧ e.offset < 2 ^ 32

instance (r : ImprintRecord) : Decidable (WFBounds r) := by
  unfold WFBounds
  infer_instance

/-- The write/read round trip, used by C3 and C4. -/
theorem writeRecord_roundtrip (r : ImprintRecord) (hw : WFBounds r)
    (hdir : r.header.flags.hasFieldDirectory = true ∨ r.directory = []) :
    imprintRecordRead (writeRecord r) = .ok (r, r.payload.length) := by
  obtain ⟨hf, hfid, hhash, hlen, hents⟩ := hw
  have hh := headerRead_writeHeader r.header
  have hdropA : ∀ l : List Nat, (writeHeader r.header ++ l).drop 11 = l := by
    intro l
    rw [← writeHeader_length r.header, List.drop_left]
  by_cases hflag : r.header.flags.hasFieldDirectory
  · have hmod : r.directory.length % 2 ^ 32 = r.directory.length := Nat.mod_eq_of_lt hlen
    have hvd : varintDecode (varintEncode r.directory.length ++
        ((r.directory.map writeEntry).flatten ++ r.payload)) =
        .ok (r.directory.length, (varintEncode r.directory.length).length) := by
      unfold varintDecode
      have := varintDecodeLoop_encode r.directory.length
        ((r.directory.map writeEntry).flatten ++ r.payload) 0 0 0
        (by omega) (by omega) (by simpa using hlen) (by norm_num)
      simpa using this
    have hdropB : ∀ l : List Nat, (varintEncode r.directory.length ++ l).drop
        (varintEncode r.directory.length).length = l := fun l => List.drop_left _ _
    have hre := readEntries_writeEntries r.directory r.payload hents
    have hflatlen : (r.directory.map writeEntry).flatten.length = 9 * r.directory.length := by
      induction r.directory with
      | nil => simp
      | cons e dir ih =>
        simp only [List.map_cons, List.flatten_cons, List.length_append,
          writeEntry_length, List.length_cons, ih]
        ring
    have hdropC : ((r.directory.map writeEntry).flatten ++ r.payload).drop
        (9 * r.directory.length) = r.payload := by
      rw [← hflatlen, List.drop_left]
    unfold writeRecord imprintRecordRead
    rw [if_pos hflag]
    simp only [List.append_assoc, hh _ hf hfid hhash, hflag, if_true, hdropA, hmod,
      hvd, hdropB, hre, hdropC]
  · rcases hdir with hdir | hdir
    · exact absurd hdir hflag
    · unfold writeRecord imprintRecordRead
      rw [if_neg hflag]
      have hflagf : r.header.flags.hasFieldDirectory = false := by
        revert hflag
        cases r.header.flags.hasFieldDirectory <;> simp
      simp only [List.append_nil, hh _ hf hfid hhash, hdropA, hflagf,
        Bool.false_eq_true, if_false]
      rw [← hdir]

/-- C3: For every record within machine-integer bounds whose wire form is
well-defined in the sense that a directory is only present when the
directory flag is set (true of every record the library produces: the
builder and both operations set the flag, and parsing yields an empty
directory when the flag is clear), parsing the bytes produced by writing the
record yields a structurally equal record: same header flags and schema id,
same directory entries in order, and the same payload bytes. -/
theorem c3_read_write_roundtrip (r : ImprintRecord) (hw : WFBounds r)
    (hdir : r.header.flags.hasFieldDirectory = true ∨ r.directory = []) :
    imprintRecordRead (writeRecord r) = .ok (r, r.payload.length) :=
  writeRecord_roundtrip r hw hdir

/-- Witness for C3: the round trip applied to the concrete one-field record
`{5: Bool(true)}`. -/
theorem c3_read_write_roundtrip_witness :
    imprintRecordRead (writeRecord recOnly5) = .ok (recOnly5, recOnly5.payload.length) :=
  c3_read_write_roundtrip recOnly5 (by decide) (Or.inl (by decide))

/-! ## Directory invariants and binary-search correctness

The §3 record invariants: a strictly id-sorted directory whose offsets are
the cumulative sizes of the previous fields' wire forms, with the payload
the concatenation of those wire forms. -/

/-- Invariant 1: directory strictly ascending by id. -/
def DirSorted (dir : List DirectoryEntry) : Prop :=
  List.Chain' (fun a b => a.id < b.id) dir

instance (dir : List DirectoryEntry) : Decidable (DirSorted dir) := by
  unfold DirSorted
  infer_instance

instance : IsTrans DirectoryEntry (fun a b : DirectoryEntry => a.id < b.id) :=
  ⟨fun _ _ _ h1 h2 => Nat.lt_trans h1 h2⟩

/-- Invariant 2 (offset accounting): each entry's offset is `off` plus the
total size of the preceding wire forms. -/
def SegFrom : List DirectoryEntry → List (List Nat) → Nat → Prop
  | [], ws, _ => ws = []
  | e :: dir, ws, off =>
    match ws with
    | [] => False
    | w :: ws1 => e.offset = off ∧ SegFrom dir ws1 (off + w.length)

/-- Total byte size of a list of wire forms. -/
def sumLens (ws : List (List Nat)) : Nat := (ws.map List.length).sum

theorem sumLens_nil : sumLens [] = 0 := rfl

theorem sumLens_cons (w : List Nat) (ws : List (List Nat)) :
    sumLens (w :: ws) = w.length + sumLens ws := by
  simp [sumLens]

theorem flatten_length_eq_sumLens (ws : List (List Nat)) :
    ws.flatten.length = sumLens ws := by
  induction ws with
  | nil => rfl
  | cons w ws ih => simp [sumLens_cons, ih]

theorem SegFrom_length : ∀ (dir : List DirectoryEntry) (ws : List (List Nat)) (off : Nat),
    SegFrom dir ws off → dir.length = ws.length
  | [], ws, _, h => by simp [SegFrom] at h; simp [h]
  | e :: dir, [], off, h => by simp [SegFrom] at h
  | e :: dir, w :: ws, off, h => by
    simp only [List.length_cons]
    exact congrArg (· + 1) (SegFrom_length dir ws (off + w.length) h.2)

/-- In a strictly sorted directory the ids are strictly monotone in the
index. -/
theorem dirSorted_ids_mono {dir : List DirectoryEntry} (hs : DirSorted dir)
    {i j : Nat} {ei ej : DirectoryEntry}
    (hij : i < j) (hi : dir.get? i = some ei) (hj : dir.get? j = some ej) :
    ei.id < ej.id := by
  have hp := List.chain'_iff_pairwise.mp hs
  have hij2 := List.pairwise_iff_get.mp hp
  have hilt : i < dir.length := (List.get?_eq_some.mp hi).1
  have hjlt : j < dir.length := (List.get?_eq_some.mp hj).1
  have := hij2 ⟨i, hilt⟩ ⟨j, hjlt⟩ hij
  have hie : dir.get ⟨i, hilt⟩ = ei := (List.get?_eq_some.mp hi).2
  have hje : dir.get ⟨j, hjlt⟩ = ej := (List.get?_eq_some.mp hj).2
  rw [hie, hje] at this
  exact this

/-- Completeness of the binary-search loop on a strictly sorted directory:
any bracketed present key is found (at its unique index). -/
theorem binarySearchGo_finds {dir : List DirectoryEntry} (hs : DirSorted dir)
    {k : Nat} {ek : DirectoryEntry} (hk : dir.get? k = some ek) :
    ∀ fuel lo hi, hi - lo ≤ fuel → lo ≤ k → k < hi → hi ≤ dir.length →
      binarySearchGo dir ek.id lo hi = some k := by
  intro fuel
  induction fuel with
  | zero =>
    intro lo hi hf hlo hhi hlen
    omega
  | succ fuel ih =>
    intro lo hi hf hlo hhi hlen
    have hlh : lo < hi := by omega
    rw [binarySearchGo, dif_pos hlh]
    have hmidlt : lo + (hi - lo) / 2 < dir.length := by omega
    obtain ⟨em, hem⟩ : ∃ em, dir.get? (lo + (hi - lo) / 2) = some em := by
      rw [List.get?_eq_get hmidlt]
      exact ⟨_, rfl⟩
    simp only [hem]
    by_cases h1 : em.id < ek.id
    · rw [if_pos h1]
      have hmidk : lo + (hi - lo) / 2 < k := by
        by_contra hc
        push_neg at hc
        rcases Nat.lt_or_ge (lo + (hi - lo) / 2) k with hlt | hge
        · omega
        · rcases Nat.eq_or_lt_of_le hge with heq | hlt2
          · rw [← heq] at hem
            rw [hk] at hem
            injection hem with hem2
            rw [hem2] at h1
            omega
          · have := dirSorted_ids_mono hs hlt2 hk hem
            omega
      exact ih _ _ (by omega) (by omega) hhi hlen
    · rw [if_neg h1]
      by_cases h2 : ek.id < em.id
      · rw [if_pos h2]
        have hkmid : k < lo + (hi - lo) / 2 := by
          by_contra hc
          push_neg at hc
          rcases Nat.eq_or_lt_of_le hc with heq | hlt2
          · rw [heq] at hem
            rw [hk] at hem
            injection hem with hem2
            rw [hem2] at h2
            omega
          · have := dirSorted_ids_mono hs hlt2 hem hk
            omega
        exact ih _ _ (by omega) hlo (by omega) (by omega)
      · rw [if_neg h2]
        have hmideq : em.id = ek.id := by omega
        congr 1
        by_contra hne
        rcases Nat.lt_or_ge (lo + (hi - lo) / 2) k with hlt | hge
        · have := dirSorted_ids_mono hs hlt hem hk
          omega
        · have hlt2 : k < lo + (hi - lo) / 2 := by omega
          have := dirSorted_ids_mono hs hlt2 hk hem
          omega

/-- Binary search by key finds exactly the index of a present entry. -/
theorem binarySearchByKey_finds {dir : List DirectoryEntry} (hs : DirSorted dir)
    {k : Nat} {ek : DirectoryEntry} (hk : dir.get? k = some ek) :
    binarySearchByKey dir ek.id = some k := by
  have hklen : k < dir.length := (List.get?_eq_some.mp hk).1
  exact binarySearchGo_finds hs hk dir.length 0 dir.length (by omega) (by omega) hklen
    (by omega)

theorem sumLens_take_le (ws : List (List Nat)) (k : Nat) :
    sumLens (ws.take k) ≤ sumLens ws := by
  induction ws generalizing k with
  | nil => simp [sumLens]
  | cons w ws ih =>
    cases k with
    | zero => simp [sumLens]
    | succ k =>
      simp only [List.take_succ_cons, sumLens_cons]
      exact Nat.add_le_add_left (ih k) _

theorem sumLens_take_succ (ws : List (List Nat)) (k : Nat) (w : List Nat)
    (hw : ws.get? k = some w) :
    sumLens (ws.take (k + 1)) = sumLens (ws.take k) + w.length := by
  induction ws generalizing k with
  | nil => simp at hw
  | cons w0 ws ih =>
    cases k with
    | zero =>
      simp at hw
      subst hw
      simp [sumLens_cons, sumLens]
    | succ k =>
      simp only [List.get?_cons_succ] at hw
      simp only [List.take_succ_cons, sumLens_cons, ih k hw]
      omega

theorem SegFrom_get : ∀ (dir : List DirectoryEntry) (ws : List (List Nat)) (off : Nat),
    SegFrom dir ws off → ∀ (k : Nat) (e : DirectoryEntry), dir.get? k = some e →
      e.offset = off + sumLens (ws.take k)
  | [], _, _, _, k, e, hk => by simp at hk
  | e0 :: dir, [], off, hseg, k, e, hk => by simp [SegFrom] at hseg
  | e0 :: dir, w :: ws, off, hseg, k, e, hk => by
    obtain ⟨h0, hrest⟩ := hseg
    cases k with
    | zero =>
      simp at hk
      subst hk
      simp [h0, sumLens]
    | succ k =>
      simp only [List.get?_cons_succ] at hk
      have := SegFrom_get dir ws (off + w.length) hrest k e hk
      simp only [List.take_succ_cons, sumLens_cons, this]
      omega

theorem SegFrom_ws_get : ∀ (dir : List DirectoryEntry) (ws : List (List Nat)) (off : Nat),
    SegFrom dir ws off → ∀ (k : Nat) (e : DirectoryEntry), dir.get? k = some e →
      ∃ w, ws.get? k = some w := by
  intro dir ws off hseg k e hk
  have hlen := SegFrom_length dir ws off hseg
  have hklt : k < dir.length := (List.get?_eq_some.mp hk).1
  rw [hlen] at hklt
  rw [List.get?_eq_get hklt]
  exact ⟨_, rfl⟩

theorem flatten_slice : ∀ (ws : List (List Nat)) (k : Nat) (w : List Nat),
    ws.get? k = some w →
      (ws.flatten.drop (sumLens (ws.take k))).take w.length = w
  | [], k, w, hw => by simp at hw
  | w0 :: ws, 0, w, hw => by
    simp at hw
    subst hw
    simp [sumLens]
  | w0 :: ws, k + 1, w, hw => by
    simp only [List.get?_cons_succ] at hw
    simp only [List.take_succ_cons, sumLens_cons, List.flatten_cons]
    rw [List.drop_append (sumLens (ws.take k))]
    exact flatten_slice ws k w hw

/-- On an invariant-satisfying record, the offset of the entry after `k`
(or the payload end for the last entry) is the end of field `k`'s bytes. -/
theorem nextOffset_canon (r : ImprintRecord) (ws : List (List Nat))
    (hseg : SegFrom r.directory ws 0) (hpay : r.payload = ws.flatten)
    {k : Nat} {ek : DirectoryEntry} {w : List Nat}
    (hk : r.directory.get? k = some ek) (hw : ws.get? k = some w) :
    (match r.directory.get? (k + 1) with
      | some e2 => e2.offset
      | none => r.payload.length) = sumLens (ws.take k) + w.length := by
  have hpaylen : r.payload.length = sumLens ws := by
    rw [hpay, flatten_length_eq_sumLens]
  have hsucc := sumLens_take_succ ws k w hw
  cases hnext : r.directory.get? (k + 1) with
  | some e2 =>
    have := SegFrom_get r.directory ws 0 hseg (k + 1) e2 hnext
    simpa [hsucc] using this
  | none =>
    have hlen := SegFrom_length r.directory ws 0 hseg
    have hklt : k < r.directory.length := (List.get?_eq_some.mp hk).1
    have hge : r.directory.length ≤ k + 1 := by
      by_contra hc
      push_neg at hc
      rw [List.get?_eq_get hc] at hnext
      simp at hnext
    have hkeq : r.directory.length = k + 1 := by omega
    have htake : ws.take (k + 1) = ws := by
      apply List.take_of_length_le
      omega
    rw [hpaylen, ← htake, hsucc, htake]

/-- On an invariant-satisfying record, slicing field `k`'s byte range out of
the payload yields exactly its wire form. -/
theorem slice_canon (r : ImprintRecord) (ws : List (List Nat))
    (hseg : SegFrom r.directory ws 0) (hpay : r.payload = ws.flatten)
    {k : Nat} {ek : DirectoryEntry} {w : List Nat}
    (hk : r.directory.get? k = some ek) (hw : ws.get? k = some w) :
    byteSlice r.payload ek.offset (sumLens (ws.take k) + w.length) = some w := by
  have hoff : ek.offset = sumLens (ws.take k) :=
    by simpa using SegFrom_get r.directory ws 0 hseg k ek hk
  have hpaylen : r.payload.length = sumLens ws := by
    rw [hpay, flatten_length_eq_sumLens]
  have hsucc := sumLens_take_succ ws k w hw
  unfold byteSlice
  rw [if_pos ?side]
  case side =>
    constructor
    · omega
    · rw [hpaylen, ← hsucc]
      exact sumLens_take_le ws (k + 1)
  rw [hoff, hpay]
  have hlen2 : sumLens (ws.take k) + w.length - sumLens (ws.take k) = w.length := by omega
  rw [hlen2]
  exact congrArg some (flatten_slice ws k w hw)

/-- The `get_raw_bytes` bridge: on an invariant-satisfying record, the raw
bytes of the `k`-th field are exactly its wire form `ws[k]`. -/
theorem getRawBytes_canon (r : ImprintRecord) (ws : List (List Nat))
    (hs : DirSorted r.directory) (hseg : SegFrom r.directory ws 0)
    (hpay : r.payload = ws.flatten)
    {k : Nat} {ek : DirectoryEntry} {w : List Nat}
    (hk : r.directory.get? k = some ek) (hw : ws.get? k = some w) :
    r.getRawBytes ek.id = some (some w) := by
  have hfind := binarySearchByKey_finds hs hk
  have hstop := nextOffset_canon r ws hseg hpay hk hw
  have hslice := slice_canon r ws hseg hpay hk hw
  unfold ImprintRecord.getRawBytes
  rw [hfind]
  simp only [hk, hstop, hslice]

/-! ## Projection preserves raw bytes (C7) -/

theorem sortDedup_single (a : Nat) : sortDedup [a] = [a] := by
  simp [sortDedup, List.mergeSort, dedupKeepFirst]

/-- The walk on a singleton requested-id list that is present in a sorted
directory: it skips the (strictly smaller) earlier entries, emits the single
match with output offset 0, and records the field's byte range. -/
theorem projectWalk_single (payloadLen : Nat) :
    ∀ (dir : List DirectoryEntry) (k : Nat) (ek : DirectoryEntry),
      DirSorted dir → dir.get? k = some ek →
      projectWalk payloadLen dir [ek.id] 0 =
        ([⟨ek.id, ek.typeCode, 0⟩],
         [(ek.offset,
           match dir.get? (k + 1) with
           | some e2 => e2.offset
           | none => payloadLen)]) := by
  intro dir
  induction dir with
  | nil =>
    intro k ek _ hk
    simp at hk
  | cons e0 dirRest ih =>
    intro k ek hs hk
    cases k with
    | zero =>
      simp only [List.get?_cons_zero] at hk
      injection hk with hk
      subst hk
      cases dirRest with
      | nil => simp [projectWalk]
      | cons e2 dirRest2 => simp [projectWalk]
    | succ k =>
      simp only [List.get?_cons_succ] at hk
      have hlt : e0.id < ek.id := by
        have h0 : (e0 :: dirRest).get? 0 = some e0 := rfl
        have hk2 : (e0 :: dirRest).get? (k + 1) = some ek := hk
        exact dirSorted_ids_mono hs (Nat.succ_pos k) h0 hk2
      have hne : ¬ e0.id = ek.id := by omega
      have hrest : DirSorted dirRest := hs.tail
      have := ih k ek hrest hk
      cases dirRest with
      | nil => simp at hk
      | cons e2 dirRest2 =>
        simp only [projectWalk, if_neg hne]
        exact this

/-- `get_raw_bytes` on a single-entry record with offset 0 returns the whole
payload. -/
theorem getRawBytes_single (h : Header) (e : DirectoryEntry) (p : List Nat)
    (hoff : e.offset = 0) :
    ImprintRecord.getRawBytes ⟨h, [e], p⟩ e.id = some (some p) := by
  have hbs : binarySearchByKey [e] e.id = some 0 :=
    binarySearchByKey_finds (by simp [DirSorted]) (by rfl)
  unfold ImprintRecord.getRawBytes
  rw [hbs]
  simp [byteSlice, hoff]

/-- C7: For every record satisfying the §3 invariants (sorted directory,
cumulative offsets, payload the concatenation of the fields' wire forms)
and every entry `f` of its directory, projecting onto `[f.id]` succeeds and
the projected record returns exactly the same raw byte sequence for `f.id`
as the original record — byte-exact preservation of the field's wire form,
including any internal length prefix. -/
theorem c7_project_single_raw_byte_exact (r : ImprintRecord) (ws : List (List Nat))
    (hs : DirSorted r.directory) (hseg : SegFrom r.directory ws 0)
    (hpay : r.payload = ws.flatten)
    (f : DirectoryEntry) (hf : f ∈ r.directory) :
    ∃ P w, project r [f.id] = some P ∧
      P.getRawBytes f.id = some (some w) ∧
      r.getRawBytes f.id = some (some w) := by
  obtain ⟨k, hk⟩ := List.mem_iff_get?.mp hf
  obtain ⟨w, hw⟩ := SegFrom_ws_get r.directory ws 0 hseg k f hk
  have hraw := getRawBytes_canon r ws hs hseg hpay hk hw
  have hstop := nextOffset_canon r ws hseg hpay hk hw
  have hslice := slice_canon r ws hseg hpay hk hw
  have hwalk := projectWalk_single r.payload.length r.directory k f hs hk
  refine ⟨⟨⟨r.header.flags, ⟨r.header.schemaId.fieldspaceId, 0xdeadbeef⟩⟩,
    [⟨f.id, f.typeCode, 0⟩], w⟩, w, ?_, ?_, hraw⟩
  · unfold project
    rw [sortDedup_single]
    simp only [hwalk, hstop, List.mapM_cons, List.mapM_nil, hslice]
    simp
  · exact getRawBytes_single _ _ _ rfl

/-- Witness for C7 on the record `{1: Bool(true), 5: Bool(false)}` at the
entry for id 5. -/
theorem c7_project_single_raw_byte_exact_witness :
    ∃ P w,
      project ⟨⟨⟨1⟩, ⟨1, 2⟩⟩, [⟨1, .bool, 0⟩, ⟨5, .bool, 1⟩], [1, 0]⟩ [5] = some P ∧
      P.getRawBytes 5 = some (some w) ∧
      ImprintRecord.getRawBytes ⟨⟨⟨1⟩, ⟨1, 2⟩⟩, [⟨1, .bool, 0⟩, ⟨5, .bool, 1⟩], [1, 0]⟩ 5 =
        some (some w) :=
  c7_project_single_raw_byte_exact
    ⟨⟨⟨1⟩, ⟨1, 2⟩⟩, [⟨1, .bool, 0⟩, ⟨5, .bool, 1⟩], [1, 0]⟩ [[1], [0]]
    (by simp [DirSorted])
    (by simp [SegFrom])
    (by rfl)
    ⟨5, .bool, 1⟩ (by simp)

/-! ## Merge payload accounting (C6) -/

/-- Whether `get_raw_bytes` succeeds (no panic, field present). -/
def rawOk (r : ImprintRecord) (id : Nat) : Bool :=
  match r.getRawBytes id with
  | some (some _) => true
  | _ => false

/-- The length of a field's raw wire form (0 when inaccessible). -/
def rawLenOf (r : ImprintRecord) (id : Nat) : Nat :=
  match r.getRawBytes id with
  | some (some bs) => bs.length
  | _ => 0

/-- Total length of `B`'s wire forms at the ids shared with `aids`: the
bytes the zombie-retention merge appends beyond the filtered merge. -/
def zombieSum (B : ImprintRecord) (aids : List Nat) : List DirectoryEntry → Nat
  | [] => 0
  | b :: db => (if b.id ∈ aids then rawLenOf B b.id else 0) + zombieSum B aids db

theorem zombieSum_irrelevant_aid (B : ImprintRecord) (x : Nat) (aids : List Nat) :
    ∀ db : List DirectoryEntry, (∀ b ∈ db, b.id ≠ x) →
      zombieSum B (x :: aids) db = zombieSum B aids db
  | [], _ => rfl
  | b :: db, h => by
    have hb := h b (by simp)
    have hrest := zombieSum_irrelevant_aid B x aids db (fun b2 hb2 => h b2 (by simp [hb2]))
    simp only [zombieSum, hrest]
    congr 1
    have : (b.id ∈ x :: aids) ↔ (b.id ∈ aids) := by
      simp [List.mem_cons, hb]
    simp [this]

theorem zombieSum_zero_of_disjoint (B : ImprintRecord) (aids : List Nat) :
    ∀ db : List DirectoryEntry, (∀ b ∈ db, b.id ∉ aids) →
      zombieSum B aids db = 0
  | [], _ => rfl
  | b :: db, h => by
    have hb := h b (by simp)
    have hrest := zombieSum_zero_of_disjoint B aids db (fun b2 hb2 => h b2 (by simp [hb2]))
    simp [zombieSum, hb, hrest]

theorem chain'_head_lt_mem {a : DirectoryEntry} {l : List DirectoryEntry}
    (h : List.Chain' (fun x y => x.id < y.id) (a :: l)) :
    ∀ x ∈ l, a.id < x.id := by
  have hp := List.chain'_iff_pairwise.mp h
  exact (List.pairwise_cons.mp hp).1

/-- The two merge policies both succeed on sorted directories with
accessible fields, and the unfiltered payload is exactly the filtered
payload plus the zombies (`B`'s wire forms at shared ids). -/
theorem mergeLoop_lengths (A B : ImprintRecord) :
    ∀ (n : Nat) (da db : List DirectoryEntry), da.length + db.length ≤ n →
      List.Chain' (fun x y => x.id < y.id) da →
      List.Chain' (fun x y => x.id < y.id) db →
      (∀ a ∈ da, rawOk A a.id = true) →
      (∀ b ∈ db, rawOk B b.id = true) →
      ∀ offT offF,
        ∃ dT pT dF pF,
          mergeLoop A B true da db offT = some (dT, pT) ∧
          mergeLoop A B false da db offF = some (dF, pF) ∧
          pF.length = pT.length + zombieSum B (da.map DirectoryEntry.id) db := by
  intro n
  induction n with
  | zero =>
    intro da db hn _ _ _ _ offT offF
    match da, db with
    | [], [] =>
      exact ⟨[], [], [], [], by simp [mergeLoop], by simp [mergeLoop], by simp [zombieSum]⟩
    | a :: _, _ => simp at hn
    | [], b :: _ => simp at hn
  | succ n ih =>
    intro da db hn hsa hsb hra hrb offT offF
    match da, db with
    | [], [] =>
      exact ⟨[], [], [], [], by simp [mergeLoop], by simp [mergeLoop], by simp [zombieSum]⟩
    | a :: da1, [] =>
      obtain ⟨bsA, hbsA⟩ : ∃ bs, A.getRawBytes a.id = some (some bs) := by
        have := hra a (by simp)
        unfold rawOk at this
        cases hx : A.getRawBytes a.id with
        | none => rw [hx] at this; simp at this
        | some o =>
          cases o with
          | none => rw [hx] at this; simp at this
          | some bs => exact ⟨bs, rfl⟩
      obtain ⟨dT, pT, dF, pF, hT, hF, hlen⟩ := ih da1 [] (by simp at hn ⊢; omega)
        hsa.tail (by simp) (fun x hx => hra x (by simp [hx])) (by simp)
        (offT + bsA.length) (offF + bsA.length)
      refine ⟨⟨a.id, a.typeCode, offT⟩ :: dT, bsA ++ pT,
        ⟨a.id, a.typeCode, offF⟩ :: dF, bsA ++ pF, ?_, ?_, ?_⟩
      · simp only [mergeLoop, hbsA, hT]
      · simp only [mergeLoop, hbsA, hF]
      · simp only [List.length_append, hlen, zombieSum]
        omega
    | [], b :: db1 =>
      obtain ⟨bsB, hbsB⟩ : ∃ bs, B.getRawBytes b.id = some (some bs) := by
        have := hrb b (by simp)
        unfold rawOk at this
        cases hx : B.getRawBytes b.id with
        | none => rw [hx] at this; simp at this
        | some o =>
          cases o with
          | none => rw [hx] at this; simp at this
          | some bs => exact ⟨bs, rfl⟩
      obtain ⟨dT, pT, dF, pF, hT, hF, hlen⟩ := ih [] db1 (by simp at hn ⊢; omega)
        (by simp) hsb.tail (by simp) (fun x hx => hrb x (by simp [hx]))
        (offT + bsB.length) (offF + bsB.length)
      refine ⟨⟨b.id, b.typeCode, offT⟩ :: dT, bsB ++ pT,
        ⟨b.id, b.typeCode, offF⟩ :: dF, bsB ++ pF, ?_, ?_, ?_⟩
      · simp only [mergeLoop, hbsB, hT]
      · simp only [mergeLoop, hbsB, hF]
      · simp only [List.length_append, hlen, List.map_nil, zombieSum]
        simp [zombieSum]
        try omega
    | a :: da1, b :: db1 =>
      obtain ⟨bsA, hbsA⟩ : ∃ bs, A.getRawBytes a.id = some (some bs) := by
        have := hra a (by simp)
        unfold rawOk at this
        cases hx : A.getRawBytes a.id with
        | none => rw [hx] at this; simp at this
        | some o =>
          cases o with
          | none => rw [hx] at this; simp at this
          | some bs => exact ⟨bs, rfl⟩
      obtain ⟨bsB, hbsB⟩ : ∃ bs, B.getRawBytes b.id = some (some bs) := by
        have := hrb b (by simp)
        unfold rawOk at this
        cases hx : B.getRawBytes b.id with
        | none => rw [hx] at this; simp at this
        | some o =>
          cases o with
          | none => rw [hx] at this; simp at this
          | some bs => exact ⟨bs, rfl⟩
      rcases Nat.lt_trichotomy a.id b.id with hab | hab | hab
      · -- A's head is strictly smaller: self branch, no duplicate
        obtain ⟨dT, pT, dF, pF, hT, hF, hlen⟩ := ih da1 (b :: db1)
          (by simp at hn ⊢; omega) hsa.tail hsb
          (fun x hx => hra x (by simp [hx])) hrb
          (offT + bsA.length) (offF + bsA.length)
        have hle : a.id ≤ b.id := by omega
        have hne : ¬ a.id = b.id := by omega
        have hzs : zombieSum B (a.id :: da1.map DirectoryEntry.id) (b :: db1) =
            zombieSum B (da1.map DirectoryEntry.id) (b :: db1) := by
          apply zombieSum_irrelevant_aid
          intro x hx
          rcases List.mem_cons.mp hx with hx | hx
          · subst hx; omega
          · have := chain'_head_lt_mem hsb x hx
            omega
        refine ⟨⟨a.id, a.typeCode, offT⟩ :: dT, bsA ++ pT,
          ⟨a.id, a.typeCode, offF⟩ :: dF, bsA ++ pF, ?_, ?_, ?_⟩
        · simp only [mergeLoop, if_pos hle, if_neg hne, hbsA, hT]
        · simp only [mergeLoop, if_pos hle, if_neg hne, hbsA, hF]
        · simp only [List.length_append, hlen, List.map_cons, hzs]
          omega
      · -- tie: left wins; zombies appended only when not filtering
        obtain ⟨dT, pT, dF, pF, hT, hF, hlen⟩ := ih da1 db1
          (by simp at hn ⊢; omega) hsa.tail hsb.tail
          (fun x hx => hra x (by simp [hx])) (fun x hx => hrb x (by simp [hx]))
          (offT + bsA.length) (offF + (bsA.length + bsB.length))
        have hle : a.id ≤ b.id := by omega
        have hzs : zombieSum B (a.id :: da1.map DirectoryEntry.id) db1 =
            zombieSum B (da1.map DirectoryEntry.id) db1 := by
          apply zombieSum_irrelevant_aid
          intro x hx
          have := chain'_head_lt_mem hsb x hx
          omega
        have hmem : b.id ∈ a.id :: da1.map DirectoryEntry.id := by
          simp [hab]
        refine ⟨⟨a.id, a.typeCode, offT⟩ :: dT, bsA ++ pT,
          ⟨a.id, a.typeCode, offF⟩ :: dF, bsA ++ (bsB ++ pF), ?_, ?_, ?_⟩
        · simp only [mergeLoop, if_pos hle, if_pos hab, hbsA, hT]
          simp
        · simp only [mergeLoop, if_pos hle, if_pos hab, hbsB, hbsA, hF]
          simp
        · simp only [List.length_append, hlen, List.map_cons, zombieSum, if_pos hmem]
          have hrl : rawLenOf B b.id = bsB.length := by
            unfold rawLenOf
            rw [hbsB]
          rw [hrl, hzs]
          omega
      · -- B's head is strictly smaller: other branch
        obtain ⟨dT, pT, dF, pF, hT, hF, hlen⟩ := ih (a :: da1) db1
          (by simp at hn ⊢; omega) hsa hsb.tail
          hra (fun x hx => hrb x (by simp [hx]))
          (offT + bsB.length) (offF + bsB.length)
        have hnle : ¬ a.id ≤ b.id := by omega
        have hnotmem : b.id ∉ a.id :: da1.map DirectoryEntry.id := by
          intro hmem
          rcases List.mem_cons.mp hmem with hx | hx
          · omega
          · obtain ⟨x, hxmem, hxid⟩ := List.mem_map.mp hx
            have := chain'_head_lt_mem hsa x hxmem
            omega
        refine ⟨⟨b.id, b.typeCode, offT⟩ :: dT, bsB ++ pT,
          ⟨b.id, b.typeCode, offF⟩ :: dF, bsB ++ pF, ?_, ?_, ?_⟩
        · simp only [mergeLoop, if_neg hnle, hbsB, hT]
        · simp only [mergeLoop, if_neg hnle, hbsB, hF]
        · simp only [List.length_append, hlen, List.map_cons, zombieSum, if_neg hnotmem]
          omega

/-- C6 (amended): For records `A`, `B` with sorted directories and
accessible fields, both merge policies succeed, the filtered payload is
never longer than the unfiltered one, and the two lengths are equal **iff
the total byte length of `B`'s wire forms at the shared ids is zero** —
in particular they are equal whenever the id sets are disjoint, but also
when every shared id has a zero-length losing value (e.g. `Null`), which
refutes the claim's "iff no overlapping ids". -/
theorem c6_filtered_payload_le (A B : ImprintRecord)
    (hsA : DirSorted A.directory) (hsB : DirSorted B.directory)
    (hrA : ∀ a ∈ A.directory, rawOk A a.id = true)
    (hrB : ∀ b ∈ B.directory, rawOk B b.id = true) :
    ∃ Mt Mf, mergeWithOpts A B true = some Mt ∧ mergeWithOpts A B false = some Mf ∧
      Mt.payload.length ≤ Mf.payload.length ∧
      (Mf.payload.length = Mt.payload.length ↔
        zombieSum B (A.directory.map DirectoryEntry.id) B.directory = 0) ∧
      ((∀ b ∈ B.directory, b.id ∉ A.directory.map DirectoryEntry.id) →
        Mf.payload.length = Mt.payload.length) := by
  obtain ⟨dT, pT, dF, pF, hT, hF, hlen⟩ :=
    mergeLoop_lengths A B (A.directory.length + B.directory.length)
      A.directory B.directory (by omega) hsA hsB hrA hrB 0 0
  refine ⟨⟨⟨A.header.flags, A.header.schemaId⟩, dT, pT⟩,
    ⟨⟨A.header.flags, A.header.schemaId⟩, dF, pF⟩, ?_, ?_, ?_, ?_, ?_⟩
  · unfold mergeWithOpts
    rw [hT]
  · unfold mergeWithOpts
    rw [hF]
  · simp only [hlen]
    omega
  · simp only [hlen]
    omega
  · intro hdisj
    have := zombieSum_zero_of_disjoint B (A.directory.map DirectoryEntry.id)
      B.directory hdisj
    simp only [hlen, this]
    omega

/-- Witness for C6 (amended) on the disjoint builder records
`{1: Bool(true)}` and `{2: Bool(true)}`. -/
theorem c6_filtered_payload_le_witness :
    ∃ Mt Mf, mergeWithOpts recBool1 recBool2 true = some Mt ∧
      mergeWithOpts recBool1 recBool2 false = some Mf ∧
      Mt.payload.length ≤ Mf.payload.length ∧
      (Mf.payload.length = Mt.payload.length ↔
        zombieSum recBool2 (recBool1.directory.map DirectoryEntry.id)
          recBool2.directory = 0) ∧
      ((∀ b ∈ recBool2.directory, b.id ∉ recBool1.directory.map DirectoryEntry.id) →
        Mf.payload.length = Mt.payload.length) :=
  c6_filtered_payload_le recBool1 recBool2
    (by simp [DirSorted, recBool1])
    (by simp [DirSorted, recBool2])
    (by
      intro a ha
      simp only [recBool1] at ha ⊢
      simp at ha
      subst ha
      simp [rawOk, ImprintRecord.getRawBytes, binarySearchByKey, binarySearchGo,
        byteSlice, recBool1])
    (by
      intro b hb
      simp only [recBool2] at hb ⊢
      simp at hb
      subst hb
      simp [rawOk, ImprintRecord.getRawBytes, binarySearchByKey, binarySearchGo,
        byteSlice, recBool2])

/-! ## Payload accounting for every producer (C4) -/

/-- The claim's property: the payload length is exactly the sum of the
encoded wire-form lengths of the fields referenced by the directory (one
value per directory entry, with matching type code). -/
def PayloadSumProp (r : ImprintRecord) : Prop :=
  ∃ vs ws,
    List.Forall₂ (fun (v : Value) (w : List Nat) => writeValue v = .ok w) vs ws ∧
    List.Forall₂ (fun (e : DirectoryEntry) (v : Value) => e.typeCode = v.typeCode)
      r.directory vs ∧
    r.payload.length = sumLens ws

/-- The §3 invariant bundle: sorted directory, cumulative offsets, payload
the concatenation of the directory fields' wire forms. -/
def CanonRec (r : ImprintRecord) : Prop :=
  DirSorted r.directory ∧
  ∃ vs ws,
    List.Forall₂ (fun (v : Value) (w : List Nat) => writeValue v = .ok w) vs ws ∧
    List.Forall₂ (fun (e : DirectoryEntry) (v : Value) => e.typeCode = v.typeCode)
      r.directory vs ∧
    SegFrom r.directory ws 0 ∧
    r.payload = ws.flatten

theorem canonRec_payloadSum {r : ImprintRecord} (h : CanonRec r) : PayloadSumProp r := by
  obtain ⟨_, vs, ws, henc, htc, _, hpay⟩ := h
  exact ⟨vs, ws, henc, htc, by rw [hpay, flatten_length_eq_sumLens]⟩

/-- A directory entry whose raw bytes are the encoding of a value of its
type code. -/
def EncodedField (r : ImprintRecord) (e : DirectoryEntry) : Prop :=
  ∃ v w, r.getRawBytes e.id = some (some w) ∧ writeValue v = .ok w ∧
    e.typeCode = v.typeCode

theorem forall₂_get? {α β : Type} {R : α → β → Prop} :
    ∀ {l1 : List α} {l2 : List β}, List.Forall₂ R l1 l2 →
      ∀ {k : Nat} {x : α}, l1.get? k = some x → ∃ y, l2.get? k = some y ∧ R x y := by
  intro l1 l2 h
  induction h with
  | nil => intro k x hx; simp at hx
  | cons hr _ ih =>
    intro k x hx
    cases k with
    | zero =>
      simp at hx
      subst hx
      exact ⟨_, rfl, hr⟩
    | succ k =>
      simp only [List.get?_cons_succ] at hx ⊢
      exact ih hx

/-- Every field of an invariant-satisfying record carries the encoding of a
value of its type code as raw bytes. -/
theorem canonRec_encodedField {r : ImprintRecord} (h : CanonRec r) :
    ∀ e ∈ r.directory, EncodedField r e := by
  obtain ⟨hs, vs, ws, henc, htc, hseg, hpay⟩ := h
  intro e he
  obtain ⟨k, hk⟩ := List.mem_iff_get?.mp he
  obtain ⟨v, hv, htcv⟩ := forall₂_get? htc hk
  obtain ⟨w, hw, hencw⟩ := forall₂_get? henc hv
  exact ⟨v, w, getRawBytes_canon r ws hs hseg hpay hk hw, hencw, htcv⟩

theorem canonRec_rawOk {r : ImprintRecord} (h : CanonRec r) :
    ∀ e ∈ r.directory, rawOk r e.id = true := by
  intro e he
  obtain ⟨v, w, hraw, _, _⟩ := canonRec_encodedField h e he
  unfold rawOk
  rw [hraw]

/-- Appending one field to a cumulative segmentation. -/
theorem SegFrom_append_singleton :
    ∀ (dir : List DirectoryEntry) (ws : List (List Nat)) (off : Nat)
      (e : DirectoryEntry) (w : List Nat),
      SegFrom dir ws off → e.offset = off + sumLens ws →
      SegFrom (dir ++ [e]) (ws ++ [w]) off
  | [], ws, off, e, w, hseg, hoff => by
    simp [SegFrom] at hseg
    subst hseg
    simp [SegFrom, sumLens] at hoff ⊢
    exact hoff
  | e0 :: dir, [], off, e, w, hseg, hoff => by
    simp [SegFrom] at hseg
  | e0 :: dir, w0 :: ws, off, e, w, hseg, hoff => by
    obtain ⟨h0, hrest⟩ := hseg
    refine ⟨h0, ?_⟩
    apply SegFrom_append_singleton dir ws _ e w hrest
    rw [hoff, sumLens_cons]
    omega

/-- The builder loop preserves and extends the invariant bundle. -/
theorem buildFields_canon :
    ∀ (fields : List (Nat × Value)) (dirAcc : List DirectoryEntry)
      (payAcc : List Nat) (vsAcc : List Value) (wsAcc : List (List Nat))
      (henc : List.Forall₂ (fun (v : Value) (w : List Nat) => writeValue v = .ok w)
        vsAcc wsAcc)
      (htc : List.Forall₂ (fun (e : DirectoryEntry) (v : Value) =>
        e.typeCode = v.typeCode) dirAcc vsAcc)
      (hseg : SegFrom dirAcc wsAcc 0) (hpay : payAcc = wsAcc.flatten)
      (dir : List DirectoryEntry) (pay : List Nat),
      buildFields fields dirAcc payAcc = .ok (dir, pay) →
      ∃ vs ws,
        List.Forall₂ (fun (v : Value) (w : List Nat) => writeValue v = .ok w) vs ws ∧
        List.Forall₂ (fun (e : DirectoryEntry) (v : Value) =>
          e.typeCode = v.typeCode) dir vs ∧
        SegFrom dir ws 0 ∧ pay = ws.flatten
  | [], dirAcc, payAcc, vsAcc, wsAcc, henc, htc, hseg, hpay, dir, pay, hbuild => by
    simp only [buildFields] at hbuild
    injection hbuild with hbuild
    injection hbuild with h1 h2
    subst h1
    subst h2
    exact ⟨vsAcc, wsAcc, henc, htc, hseg, hpay⟩
  | (id, v) :: fields, dirAcc, payAcc, vsAcc, wsAcc, henc, htc, hseg, hpay, dir, pay,
      hbuild => by
    simp only [buildFields] at hbuild
    cases hwv : writeValue v with
    | error e =>
      rw [hwv] at hbuild
      simp at hbuild
    | ok w =>
      rw [hwv] at hbuild
      refine buildFields_canon fields (dirAcc ++ [⟨id, v.typeCode, payAcc.length⟩])
        (payAcc ++ w) (vsAcc ++ [v]) (wsAcc ++ [w]) ?_ ?_ ?_ ?_ dir pay hbuild
      · exact List.rel_append henc (List.Forall₂.cons hwv List.Forall₂.nil)
      · exact List.rel_append htc (List.Forall₂.cons rfl List.Forall₂.nil)
      · apply SegFrom_append_singleton dirAcc wsAcc 0 _ w hseg
        simp [hpay, flatten_length_eq_sumLens, sumLens]
      · simp [hpay]

/-- The projection walk on an invariant-satisfying (suffix of a) directory
yields a directory/range pair that reconstitutes the invariant bundle:
selected entries keep their type codes, output offsets are cumulative from
`currentOff`, and slicing the recorded ranges yields exactly the selected
wire forms. -/
theorem projectWalk_canon (payload : List Nat) :
    ∀ (dir : List DirectoryEntry) (ws : List (List Nat)) (vs : List Value)
      (targets : List Nat) (off currentOff : Nat),
      SegFrom dir ws off →
      List.Forall₂ (fun (v : Value) (w : List Nat) => writeValue v = .ok w) vs ws →
      List.Forall₂ (fun (e : DirectoryEntry) (v : Value) =>
        e.typeCode = v.typeCode) dir vs →
      payload.drop off = ws.flatten →
      off + sumLens ws = payload.length →
      ∃ dir2 ranges vs2 ws2,
        projectWalk payload.length dir targets currentOff = (dir2, ranges) ∧
        List.Forall₂ (fun (v : Value) (w : List Nat) => writeValue v = .ok w) vs2 ws2 ∧
        List.Forall₂ (fun (e : DirectoryEntry) (v : Value) =>
          e.typeCode = v.typeCode) dir2 vs2 ∧
        SegFrom dir2 ws2 currentOff ∧
        ranges.mapM (fun rg => byteSlice payload rg.1 rg.2) = some ws2 := by
  intro dir
  induction dir with
  | nil =>
    intro ws vs targets off currentOff hseg henc htc hdrop htot
    refine ⟨[], [], [], [], ?_, List.Forall₂.nil, List.Forall₂.nil, rfl, rfl⟩
    cases targets <;> simp [projectWalk]
  | cons field restDir ih =>
    intro ws vs targets off currentOff hseg henc htc hdrop htot
    cases targets with
    | nil =>
      exact ⟨[], [], [], [], by simp [projectWalk], List.Forall₂.nil, List.Forall₂.nil,
        rfl, rfl⟩
    | cons t restT =>
      cases ws with
      | nil => simp [SegFrom] at hseg
      | cons w ws1 =>
        obtain ⟨hoff0, hsegrest⟩ := hseg
        cases henc with
        | cons hencHead hencRest =>
          rename_i v vs1
          cases htc with
          | cons htcHead htcRest =>
            have hdroprest : payload.drop (off + w.length) = ws1.flatten := by
              rw [← List.drop_drop, hdrop]
              simp
            have htotrest : (off + w.length) + sumLens ws1 = payload.length := by
              rw [sumLens_cons] at htot
              omega
            cases restDir with
            | nil =>
              have hws1 : ws1 = [] := by
                cases hw2 : ws1 with
                | nil => rfl
                | cons w2 ws2 =>
                  rw [hw2] at hsegrest
                  simp [SegFrom] at hsegrest
              subst hws1
              have hpl : payload.length = off + w.length := by
                simp [sumLens_cons, sumLens] at htot
                omega
              have hflat : payload.drop off = w := by
                rw [hdrop]
                simp
              by_cases hid : field.id = t
              · have hslice1 : byteSlice payload field.offset payload.length = some w := by
                  unfold byteSlice
                  rw [hoff0, if_pos (by omega)]
                  rw [hflat]
                  congr 1
                  have : payload.length - off = w.length := by omega
                  rw [this]
                  exact List.take_length w
                refine ⟨[⟨field.id, field.typeCode, currentOff⟩],
                  [(field.offset, payload.length)], [v], [w], ?_, ?_, ?_, ?_, ?_⟩
                · cases restT <;> simp [projectWalk, hid]
                · exact List.Forall₂.cons hencHead List.Forall₂.nil
                · exact List.Forall₂.cons htcHead List.Forall₂.nil
                · exact ⟨rfl, rfl⟩
                · simp only [List.mapM_cons, hslice1, List.mapM_nil]
                  rfl
              · refine ⟨[], [], [], [], ?_, List.Forall₂.nil, List.Forall₂.nil, rfl, rfl⟩
                simp [projectWalk, hid]
            | cons e2 restDir2 =>
              have hoff2 : e2.offset = off + w.length := by
                cases hw2 : ws1 with
                | nil =>
                  rw [hw2] at hsegrest
                  simp [SegFrom] at hsegrest
                | cons w2 ws2 =>
                  rw [hw2] at hsegrest
                  exact hsegrest.1
              by_cases hid : field.id = t
              · obtain ⟨dir1, ranges1, vs2, ws2, hwalk1, henc2, htc2, hseg2, hmap2⟩ :=
                  ih ws1 vs1 restT (off + w.length) (currentOff + w.length)
                    hsegrest hencRest htcRest hdroprest htotrest
                have hslice1 : byteSlice payload field.offset e2.offset = some w := by
                  unfold byteSlice
                  rw [hoff0, hoff2, if_pos (by omega)]
                  have h2 : off + w.length - off = w.length := by omega
                  rw [h2, hdrop]
                  congr 1
                  exact List.take_left w ws1.flatten
                refine ⟨⟨field.id, field.typeCode, currentOff⟩ :: dir1,
                  (field.offset, e2.offset) :: ranges1,
                  v :: vs2, w :: ws2, ?_, ?_, ?_, ?_, ?_⟩
                · simp only [projectWalk, if_pos hid, hoff2, hoff0,
                    Nat.add_sub_cancel_left, hwalk1]
                · exact List.Forall₂.cons hencHead henc2
                · exact List.Forall₂.cons htcHead htc2
                · exact ⟨rfl, hseg2⟩
                · simp only [List.mapM_cons, hslice1, hmap2]
                  rfl
              · obtain ⟨dir1, ranges1, vs2, ws2, hwalk1, henc2, htc2, hseg2, hmap2⟩ :=
                  ih ws1 vs1 (t :: restT) (off + w.length) currentOff
                    hsegrest hencRest htcRest hdroprest htotrest
                refine ⟨dir1, ranges1, vs2, ws2, ?_, henc2, htc2, hseg2, hmap2⟩
                simp only [projectWalk, if_neg hid]
                exact hwalk1

/-- The filtered merge loop over directories of encoded fields produces a
directory of encoded fields with cumulative offsets whose payload is the
concatenation of the winners' wire forms. -/
theorem mergeLoop_canon (A B : ImprintRecord) :
    ∀ (n : Nat) (da db : List DirectoryEntry), da.length + db.length ≤ n →
      (∀ a ∈ da, EncodedField A a) →
      (∀ b ∈ db, EncodedField B b) →
      ∀ off, ∃ dir pay vs ws,
        mergeLoop A B true da db off = some (dir, pay) ∧
        List.Forall₂ (fun (v : Value) (w : List Nat) => writeValue v = .ok w) vs ws ∧
        List.Forall₂ (fun (e : DirectoryEntry) (v : Value) =>
          e.typeCode = v.typeCode) dir vs ∧
        SegFrom dir ws off ∧ pay = ws.flatten := by
  intro n
  induction n with
  | zero =>
    intro da db hn _ _ off
    match da, db with
    | [], [] =>
      exact ⟨[], [], [], [], by simp [mergeLoop], List.Forall₂.nil, List.Forall₂.nil,
        rfl, rfl⟩
    | a :: _, _ => simp at hn
    | [], b :: _ => simp at hn
  | succ n ih =>
    intro da db hn hea heb off
    match da, db with
    | [], [] =>
      exact ⟨[], [], [], [], by simp [mergeLoop], List.Forall₂.nil, List.Forall₂.nil,
        rfl, rfl⟩
    | a :: da1, [] =>
      obtain ⟨v, w, hraw, henc, htc⟩ := hea a (by simp)
      obtain ⟨dir1, pay1, vs1, ws1, hloop, henc1, htc1, hseg1, hpay1⟩ :=
        ih da1 [] (by simp at hn ⊢; omega) (fun x hx => hea x (by simp [hx])) (by simp)
          (off + w.length)
      refine ⟨⟨a.id, a.typeCode, off⟩ :: dir1, w ++ pay1, v :: vs1, w :: ws1, ?_,
        List.Forall₂.cons henc henc1, List.Forall₂.cons htc htc1, ⟨rfl, hseg1⟩,
        by simp [hpay1]⟩
      simp only [mergeLoop, hraw, hloop]
    | [], b :: db1 =>
      obtain ⟨v, w, hraw, henc, htc⟩ := heb b (by simp)
      obtain ⟨dir1, pay1, vs1, ws1, hloop, henc1, htc1, hseg1, hpay1⟩ :=
        ih [] db1 (by simp at hn ⊢; omega) (by simp) (fun x hx => heb x (by simp [hx]))
          (off + w.length)
      refine ⟨⟨b.id, b.typeCode, off⟩ :: dir1, w ++ pay1, v :: vs1, w :: ws1, ?_,
        List.Forall₂.cons henc henc1, List.Forall₂.cons htc htc1, ⟨rfl, hseg1⟩,
        by simp [hpay1]⟩
      simp only [mergeLoop, hraw, hloop]
    | a :: da1, b :: db1 =>
      obtain ⟨v, w, hraw, henc, htc⟩ := hea a (by simp)
      obtain ⟨vb, wb, hrawb, hencb, htcb⟩ := heb b (by simp)
      rcases Nat.lt_trichotomy a.id b.id with hab | hab | hab
      · obtain ⟨dir1, pay1, vs1, ws1, hloop, henc1, htc1, hseg1, hpay1⟩ :=
          ih da1 (b :: db1) (by simp at hn ⊢; omega)
            (fun x hx => hea x (by simp [hx])) heb (off + w.length)
        refine ⟨⟨a.id, a.typeCode, off⟩ :: dir1, w ++ pay1, v :: vs1, w :: ws1, ?_,
          List.Forall₂.cons henc henc1, List.Forall₂.cons htc htc1, ⟨rfl, hseg1⟩,
          by simp [hpay1]⟩
        simp only [mergeLoop, if_pos (by omega : a.id ≤ b.id),
          if_neg (by omega : ¬ a.id = b.id), hraw, hloop]
      · obtain ⟨dir1, pay1, vs1, ws1, hloop, henc1, htc1, hseg1, hpay1⟩ :=
          ih da1 db1 (by simp at hn ⊢; omega)
            (fun x hx => hea x (by simp [hx])) (fun x hx => heb x (by simp [hx]))
            (off + w.length)
        refine ⟨⟨a.id, a.typeCode, off⟩ :: dir1, w ++ pay1, v :: vs1, w :: ws1, ?_,
          List.Forall₂.cons henc henc1, List.Forall₂.cons htc htc1, ⟨rfl, hseg1⟩,
          by simp [hpay1]⟩
        simp only [mergeLoop, if_pos (by omega : a.id ≤ b.id), if_pos hab, hraw, hloop]
        simp
      · obtain ⟨dir1, pay1, vs1, ws1, hloop, henc1, htc1, hseg1, hpay1⟩ :=
          ih (a :: da1) db1 (by simp at hn ⊢; omega)
            hea (fun x hx => heb x (by simp [hx])) (off + wb.length)
        refine ⟨⟨b.id, b.typeCode, off⟩ :: dir1, wb ++ pay1, vb :: vs1, wb :: ws1, ?_,
          List.Forall₂.cons hencb henc1, List.Forall₂.cons htcb htc1, ⟨rfl, hseg1⟩,
          by simp [hpay1]⟩
        simp only [mergeLoop, if_neg (by omega : ¬ a.id ≤ b.id), hrawb, hloop]

/-- With no shared ids the duplicate branch never fires: the two policies
agree. -/
theorem mergeLoop_disjoint (A B : ImprintRecord) :
    ∀ (n : Nat) (da db : List DirectoryEntry), da.length + db.length ≤ n →
      (∀ a ∈ da, ∀ b ∈ db, a.id ≠ b.id) →
      ∀ off, mergeLoop A B false da db off = mergeLoop A B true da db off := by
  intro n
  induction n with
  | zero =>
    intro da db hn _ off
    match da, db with
    | [], [] => simp [mergeLoop]
    | a :: _, _ => simp at hn
    | [], b :: _ => simp at hn
  | succ n ih =>
    intro da db hn hdisj off
    match da, db with
    | [], [] => simp [mergeLoop]
    | a :: da1, [] =>
      simp only [mergeLoop, ih da1 [] (by simp at hn ⊢; omega) (by simp)]
    | [], b :: db1 =>
      simp only [mergeLoop, ih [] db1 (by simp at hn ⊢; omega) (by simp)]
    | a :: da1, b :: db1 =>
      have hne : a.id ≠ b.id := hdisj a (by simp) b (by simp)
      by_cases hle : a.id ≤ b.id
      · simp only [mergeLoop, if_pos hle, if_neg hne,
          ih da1 (b :: db1) (by simp at hn ⊢; omega)
            (fun x hx y hy => hdisj x (by simp [hx]) y hy)]
      · simp only [mergeLoop, if_neg hle,
          ih (a :: da1) db1 (by simp at hn ⊢; omega)
            (fun x hx y hy => hdisj x hx y (by simp [hy]))]

/-- The invariant bundle holds for the concrete record `{1: Bool(true)}`. -/
theorem canonRec_recBool1 : CanonRec recBool1 :=
  ⟨by simp [DirSorted, recBool1], [.bool true], [[1]],
   List.Forall₂.cons rfl List.Forall₂.nil,
   List.Forall₂.cons rfl List.Forall₂.nil, ⟨rfl, rfl⟩, rfl⟩

/-- The invariant bundle holds for the concrete record `{2: Bool(true)}`. -/
theorem canonRec_recBool2 : CanonRec recBool2 :=
  ⟨by simp [DirSorted, recBool2], [.bool true], [[1]],
   List.Forall₂.cons rfl List.Forall₂.nil,
   List.Forall₂.cons rfl List.Forall₂.nil, ⟨rfl, rfl⟩, rfl⟩

/-- C4 (amended): the payload-length invariant — payload length equals the
sum of the encoded wire-form lengths of the fields referenced by the
directory — holds for builder outputs, for the parse of a written
invariant-satisfying record, for every projection of an
invariant-satisfying record, for merges with
`filter_duplicate_payloads = true`, and for unfiltered merges whose inputs
share no field id.  (It fails for unfiltered merges with overlapping ids:
see the zombie-bytes counterexample.) -/
theorem c4_payload_sum_for_producers :
    (∀ (sid : SchemaId) (fields : List (Nat × Value)) (R : ImprintRecord),
        build sid fields = .ok R → PayloadSumProp R) ∧
    (∀ R : ImprintRecord, CanonRec R → WFBounds R →
        (R.header.flags.hasFieldDirectory = true ∨ R.directory = []) →
        ∃ R' n, imprintRecordRead (writeRecord R) = .ok (R', n) ∧ PayloadSumProp R') ∧
    (∀ (R : ImprintRecord) (ids : List Nat), CanonRec R →
        ∃ P, project R ids = some P ∧ PayloadSumProp P) ∧
    (∀ A B : ImprintRecord, CanonRec A → CanonRec B →
        ∃ M, mergeWithOpts A B true = some M ∧ PayloadSumProp M) ∧
    (∀ A B : ImprintRecord, CanonRec A → CanonRec B →
        (∀ a ∈ A.directory, ∀ b ∈ B.directory, a.id ≠ b.id) →
        ∃ M, mergeWithOpts A B false = some M ∧ PayloadSumProp M) := by
  refine ⟨?_, ?_, ?_, ?_, ?_⟩
  · intro sid fields R hb
    unfold build at hb
    cases hbf : buildFields fields [] [] with
    | error e => rw [hbf] at hb; simp at hb
    | ok dp =>
      obtain ⟨dir, pay⟩ := dp
      rw [hbf] at hb
      simp only [] at hb
      injection hb with hb
      obtain ⟨vs, ws, henc, htc, _, hpay⟩ :=
        buildFields_canon fields [] [] [] [] List.Forall₂.nil List.Forall₂.nil
          rfl rfl dir pay hbf
      subst hb
      exact ⟨vs, ws, henc, htc, by rw [hpay, flatten_length_eq_sumLens]⟩
  · intro R hcanon hw hdir
    exact ⟨R, R.payload.length, writeRecord_roundtrip R hw hdir,
      canonRec_payloadSum hcanon⟩
  · intro R ids hcanon
    obtain ⟨hs, vs, ws, henc, htc, hseg, hpay⟩ := hcanon
    obtain ⟨dir2, ranges, vs2, ws2, hwalk, henc2, htc2, hseg2, hmap⟩ :=
      projectWalk_canon R.payload R.directory ws vs (sortDedup ids) 0 0 hseg henc htc
        (by simpa using hpay) (by rw [hpay, flatten_length_eq_sumLens]; omega)
    refine ⟨⟨⟨R.header.flags, ⟨R.header.schemaId.fieldspaceId, 0xdeadbeef⟩⟩,
      dir2, ws2.flatten⟩, ?_, ?_⟩
    · unfold project
      simp only [hwalk, hmap]
    · exact ⟨vs2, ws2, henc2, htc2, by rw [flatten_length_eq_sumLens]⟩
  · intro A B hA hB
    obtain ⟨dir, pay, vs, ws, hloop, henc, htc, hseg, hpay⟩ :=
      mergeLoop_canon A B (A.directory.length + B.directory.length)
        A.directory B.directory le_rfl (canonRec_encodedField hA)
        (canonRec_encodedField hB) 0
    refine ⟨⟨⟨A.header.flags, A.header.schemaId⟩, dir, pay⟩, ?_, ?_⟩
    · unfold mergeWithOpts
      rw [hloop]
    · exact ⟨vs, ws, henc, htc, by rw [hpay, flatten_length_eq_sumLens]⟩
  · intro A B hA hB hdisj
    obtain ⟨dir, pay, vs, ws, hloop, henc, htc, hseg, hpay⟩ :=
      mergeLoop_canon A B (A.directory.length + B.directory.length)
        A.directory B.directory le_rfl (canonRec_encodedField hA)
        (canonRec_encodedField hB) 0
    refine ⟨⟨⟨A.header.flags, A.header.schemaId⟩, dir, pay⟩, ?_, ?_⟩
    · unfold mergeWithOpts
      rw [mergeLoop_disjoint A B (A.directory.length + B.directory.length)
        A.directory B.directory le_rfl hdisj 0, hloop]
    · exact ⟨vs, ws, henc, htc, by rw [hpay, flatten_length_eq_sumLens]⟩

/-- Witness for the amended C4 theorem: the projection of `{1: Bool(true)}`
onto `[1]` and the filtered merge of `{1: Bool(true)}` with `{2: Bool(true)}`
both exist and satisfy the payload-length invariant. -/
theorem c4_payload_sum_for_producers_witness :
    (∃ P, project recBool1 [1] = some P ∧ PayloadSumProp P) ∧
    (∃ M, mergeWithOpts recBool1 recBool2 true = some M ∧ PayloadSumProp M) :=
  ⟨c4_payload_sum_for_producers.2.2.1 recBool1 [1] canonRec_recBool1,
   c4_payload_sum_for_producers.2.2.2.1 recBool1 recBool2
     canonRec_recBool1 canonRec_recBool2⟩

end Imprint
